import Mathlib

/-!
# lloth: a recursive link collector

A shallow embedding of `lib/lloth.go` and `main.go` of `opd-ai/lloth`.

* Go strings are Lean `String`s, read through their character list.
* A Go `map` of which only the key set is observable (`map[string]struct{}`, and the
  blocklist, whose values repeat the keys) is a duplicate-free key list, `StrSet`.
* `net/url`, `net/http` and the HTML parser are not part of the repository: the URL
  functions are a parameter (`UrlLib`), the answers of the network are chosen by the
  schedule that drives a crawl, and the redirects that the HTTP client follows are a
  parameter of `httpRequests`.
* Goroutines are interleaved at the granularity of the operations on shared state
  (`Wg`, `sem`, the critical section of `AddLink`).
-/

namespace Lloth

/-! ## Strings -/

/-- Go `strings.HasPrefix`, on characters. -/
def hasPrefixChars : List Char → List Char → Bool
  | _, [] => true
  | [], _ :: _ => false
  | a :: s, b :: p => a == b && hasPrefixChars s p

/-- Go `strings.Index(s, substr) >= 0`, on characters: try every start position from the left. -/
def containsChars : List Char → List Char → Bool
  | [], sub => hasPrefixChars [] sub
  | a :: s, sub => hasPrefixChars (a :: s) sub || containsChars s sub

/-- Go `strings.Contains(s, substr)`. -/
def Contains (s substr : String) : Bool :=
  containsChars s.data substr.data

/-- Go `strings.Split(s, sep)` for a one-character separator, on characters. The result is
never empty: a string without separator is returned as the only piece. -/
def splitChars (sep : Char) : List Char → List (List Char)
  | [] => [[]]
  | c :: cs =>
    if c = sep then [] :: splitChars sep cs
    else
      match splitChars sep cs with
      | [] => [[c]]
      | seg :: rest => (c :: seg) :: rest

/-- Go `strings.Split(s, sep)` for a one-character separator. -/
def Split (s : String) (sep : Char) : List String :=
  (splitChars sep s.data).map String.mk

/-- Go `strings.Join(elems, sep)`. -/
def Join : List String → String → String
  | [], _ => ""
  | [a], _ => a
  | a :: b :: rest, sep => a ++ sep ++ Join (b :: rest) sep

/-! ## Maps used as sets -/

/-- A Go map of which only the key set matters: the keys, without repetition. -/
structure StrSet where
  keys : List String
  nodup : keys.Nodup

namespace StrSet

/-- The Go expression `make(map[string]T)`. -/
def empty : StrSet := ⟨[], List.nodup_nil⟩

/-- The Go test `_, ok := m[k]`. -/
def contains (m : StrSet) (k : String) : Bool := decide (k ∈ m.keys)

/-- The Go assignment `m[k] = v`: a new key is added, a present key is kept. -/
def insert (m : StrSet) (k : String) : StrSet :=
  if h : k ∈ m.keys then m
  else ⟨m.keys ++ [k], List.Nodup.append m.nodup (List.nodup_singleton k)
          (by
            intro a ha hb
            rw [List.mem_singleton] at hb
            exact h (hb ▸ ha))⟩

end StrSet

/-! ## The blocklist -/

/-- The type `blocklist` (`map[string]string`, every value equal to its key). -/
abbrev blocklist := StrSet

/-- The function `newBlocklist`; the embedded file `cleaned_hosts.txt` (the variable `b`) is
the argument. -/
def newBlocklist (b : String) : blocklist :=
  (Split b '\n').foldl (fun bl host => bl.insert host) StrSet.empty

/-! ## The collector -/

/-- The struct `LinkCollector`. `Wg` is the counter of the wait group, `semSize` and `semCur`
are the capacity and the number of held slots of the weighted semaphore; the mutex is
implicit in the atomicity of the functions that take it. -/
structure LinkCollector where
  VisitedLinks : StrSet
  DomainList : StrSet
  Wg : Int
  semSize : Nat
  semCur : Nat
  blocklist : blocklist

/-- The function `NewLinkCollector`, with the blocklist payload as an argument. -/
def NewLinkCollector (maxConcurrent : Nat) (b : String) : LinkCollector :=
  { VisitedLinks := StrSet.empty
    DomainList := StrSet.empty
    Wg := 0
    semSize := maxConcurrent
    semCur := 0
    blocklist := newBlocklist b }

/-! ## Persistence of the domain list -/

/-- The variable `anyof`. -/
def anyof : List String :=
  ["google.com", "msn.com", "github.com", "gitlab.com", "yahoo", "adtech", "ads.",
   "discord.gg", "discord.com", "yimg.com", "ytimg"]

/-- The function `ContainsAny`. -/
def ContainsAny (str : String) : List String → Bool
  | [] => false
  | c :: comp =>
    if Contains str c && !Contains str "downloads" then true
    else ContainsAny str comp

/-- What a file holds after a write. `json xs` is the output of
`json.MarshalIndent(xs, "", "  ")`, `created` the empty file left by `os.Create`. -/
inductive FileData where
  | created
  | json (xs : List String)
  | text (s : String)
deriving DecidableEq, Repr

/-- The outcome of the operating-system and library calls of `SaveDomainList`. -/
structure SaveEnv where
  createOk : Bool
  marshalOk : Bool
  writeOk : Bool
  writeFileOk : Bool

/-- What `SaveDomainList` computes: the collector it leaves, its two local slices, and the
files it wrote, in order. -/
structure SaveDomainListResult where
  lc : LinkCollector
  domains : List String
  badDomains : List String
  files : List (String × FileData)

/-- The loop of `SaveDomainList` over the keys `order` of `DomainList`. -/
def domainLoop (bl : blocklist) (order : List String) : List String × List String :=
  order.foldl
    (fun acc domain =>
      let domains := if bl.contains domain then acc.1 else acc.1 ++ [domain]
      let badDomains := if ContainsAny domain anyof then acc.2 ++ [domain] else acc.2
      (domains, badDomains))
    ([], [])

/-- The function `SaveDomainList`. Go leaves the order of `range` over a map open: `order` is
the enumeration of the keys of `DomainList` the runtime picked. -/
def SaveDomainList (lc : LinkCollector) (filename : String) (order : List String)
    (env : SaveEnv) : SaveDomainListResult :=
  let r := domainLoop lc.blocklist order
  let files :=
    if !env.createOk then []
    else if !env.marshalOk then [(filename, FileData.created)]
    else if !env.writeOk then [(filename, FileData.created)]
    else if !env.writeFileOk then
      [(filename, FileData.created), (filename, FileData.json r.1)]
    else
      [(filename, FileData.created), (filename, FileData.json r.1),
       ("bad_domains.txt", FileData.text (Join r.2 "\n"))]
  { lc := lc, domains := r.1, badDomains := r.2, files := files }

/-! ## The URL library -/

/-- The part of Go `net/url` the collector calls, as a parameter. A `*url.URL` that may be
nil is an `Option URL`; `Parse` is `none` exactly when `url.Parse` returns an error. -/
structure UrlLib where
  URL : Type
  Parse : String → Option URL
  Host : URL → String
  ResolveReference : URL → URL → URL
  ResolveReferenceNil : URL → Option URL
  UrlString : URL → String

/-! ## The document tree -/

/-- The constants of `html.NodeType`. -/
inductive NodeType where
  | ErrorNode
  | TextNode
  | DocumentNode
  | ElementNode
  | CommentNode
  | DoctypeNode
  | RawNode
deriving DecidableEq, Repr

/-- The struct `html.Attribute`. -/
structure Attribute where
  Namespace : String
  Key : String
  Val : String
deriving DecidableEq, Repr

/-- The struct `html.Node`: the chain `FirstChild`, `NextSibling`, ... is the list of
children, first to last. -/
inductive Node where
  | mk (Type_ : NodeType) (Data : String) (Attr : List Attribute) (children : List Node)

/-- The loop `for _, attr := range n.Attr` with the test `attr.Key == key`. -/
def attrLoop {σ : Type} (AddLink : σ → String → String → σ) (key baseURL : String) :
    List Attribute → σ → σ
  | [], s => s
  | attr :: rest, s =>
    attrLoop AddLink key baseURL rest (if attr.Key = key then AddLink s attr.Val baseURL else s)

mutual
/-- The method `ExtractLinks`, with the state `σ` that its calls of `AddLink` act on. -/
def ExtractLinks {σ : Type} (AddLink : σ → String → String → σ) :
    Node → String → σ → σ
  | .mk t data attr children, baseURL, s =>
    let s1 :=
      if t = NodeType.ElementNode then
        if data = "a" then attrLoop AddLink "href" baseURL attr s
        else if data = "iframe" then attrLoop AddLink "src" baseURL attr s
        else if data = "frame" then attrLoop AddLink "src" baseURL attr s
        else if data = "script" then attrLoop AddLink "src" baseURL attr s
        else if data = "link" then attrLoop AddLink "href" baseURL attr s
        else s
      else s
    ExtractLinksChildren AddLink children baseURL s1
/-- The loop `for c := n.FirstChild; c != nil; c = c.NextSibling` of `ExtractLinks`. -/
def ExtractLinksChildren {σ : Type} (AddLink : σ → String → String → σ) :
    List Node → String → σ → σ
  | [], _, s => s
  | c :: rest, baseURL, s =>
    ExtractLinksChildren AddLink rest baseURL (ExtractLinks AddLink c baseURL s)
end

/-- The calls `AddLink(link, base)` that `ExtractLinks` makes on a document, in order. -/
def linkCalls (n : Node) (baseURL : String) : List (String × String) :=
  ExtractLinks (fun acc link base => acc ++ [(link, base)]) n baseURL []

/-! ### The extraction as the specification words it -/

/-- Spec: the values of the attributes with key `key`, in attribute order. -/
def attrValues (key : String) (attr : List Attribute) : List String :=
  (attr.filter (fun a => a.Key = key)).map (fun a => a.Val)

/-- Spec: what one node contributes: `href` values for an element tagged `a` or `link`,
`src` values for an element tagged `iframe`, `frame` or `script`, nothing otherwise. -/
def contribution : Node → List String
  | .mk t data attr _ =>
    if t = NodeType.ElementNode ∧ (data = "a" ∨ data = "link") then attrValues "href" attr
    else if t = NodeType.ElementNode ∧ (data = "iframe" ∨ data = "frame" ∨ data = "script") then
      attrValues "src" attr
    else []

mutual
/-- Spec: the nodes of a tree in pre-order: a node, then its children first to last. -/
def preorder : Node → List Node
  | .mk t data attr children => Node.mk t data attr children :: preorderList children
/-- Spec: the pre-order of a list of sibling trees. -/
def preorderList : List Node → List Node
  | [] => []
  | c :: rest => preorder c ++ preorderList rest
end

mutual
/-- The number of nodes of a tree. -/
def nodeCount : Node → Nat
  | .mk _ _ _ children => 1 + nodeCountList children
/-- The number of nodes of a list of sibling trees. -/
def nodeCountList : List Node → Nat
  | [] => 0
  | c :: rest => nodeCount c + nodeCountList rest
end

/-! ## AddLink -/

/-- The method `AddLink`. The result is `none` when the call panics (a nil base is
dereferenced), else the collector it leaves and the arguments of the goroutines
`go lc.CollectLinks(..)` it started. -/
def AddLink (lib : UrlLib) (lc : LinkCollector) (link baseURL : String) :
    Option (LinkCollector × List String) :=
  match lib.Parse link with
  | none => some (lc, [])
  | some parsedLink =>
    if lc.blocklist.contains (lib.Host parsedLink) then some (lc, [])
    else
      let resolved : Option lib.URL :=
        if lib.Host parsedLink = "" then
          match lib.Parse baseURL with
          | some parsedBase => some (lib.ResolveReference parsedBase parsedLink)
          | none => lib.ResolveReferenceNil parsedLink
        else some parsedLink
      match resolved with
      | none => none
      | some parsedLink =>
        if lc.VisitedLinks.contains (lib.UrlString parsedLink) then some (lc, [])
        else
          some ({ lc with
                  VisitedLinks := lc.VisitedLinks.insert (lib.UrlString parsedLink)
                  DomainList := lc.DomainList.insert (lib.Host parsedLink)
                  Wg := lc.Wg + 1 },
                [lib.UrlString parsedLink])

/-! ## CollectLinks as a goroutine -/

/-- Where a goroutine running `CollectLinks(baseURL)` stands.

* `launched`: the statement `go lc.CollectLinks(baseURL)` ran, the body has not begun;
* `admission`: the blocklist test passed, `Wg.Done` is deferred, the goroutine is at
  `sem.Acquire`;
* `fetching`: a slot is held, `sem.Release` is deferred, the goroutine is at `http.Get`;
* `extracting`: inside `ExtractLinks`, with the calls of `AddLink` still to make;
* `returned`: the function returned. -/
inductive Task where
  | launched (baseURL : String)
  | admission (baseURL : String)
  | fetching (baseURL : String)
  | extracting (baseURL : String) (calls : List (String × String))
  | returned (baseURL : String)
deriving DecidableEq, Repr

/-- The argument a goroutine was launched with. -/
def Task.baseURL : Task → String
  | .launched u => u
  | .admission u => u
  | .fetching u => u
  | .extracting u _ => u
  | .returned u => u

/-- Whether the goroutine has returned. -/
def Task.finished : Task → Bool
  | .returned _ => true
  | _ => false

/-- The state of a crawl: the collector, the goroutines started so far (the seed's first,
then in the order of their `go` statements), and the arguments of the calls of `http.Get`. -/
structure World where
  lc : LinkCollector
  tasks : List Task
  fetched : List String

/-- The arguments of all `go lc.CollectLinks(..)` statements so far. -/
def World.launches (w : World) : List String := w.tasks.map Task.baseURL

/-- The number of goroutines that have not returned. -/
def World.unfinished (w : World) : Nat := (w.tasks.filter (fun t => !t.finished)).length

/-- The call `sem.Release(1)`; `none` is the panic of a release without a held slot. -/
def semRelease (lc : LinkCollector) : Option LinkCollector :=
  if lc.semCur = 0 then none else some { lc with semCur := lc.semCur - 1 }

/-- The call `Wg.Done()`; `none` is the panic of a negative counter. -/
def WgDone (lc : LinkCollector) : Option LinkCollector :=
  if lc.Wg - 1 < 0 then none else some { lc with Wg := lc.Wg - 1 }

/-- The deferred calls of a `CollectLinks` that got its slot: `sem.Release(1)`, then
`Wg.Done()`. -/
def deferred (lc : LinkCollector) : Option LinkCollector :=
  (semRelease lc).bind WgDone

/-- Whether the URL string parses to a URL with a host. -/
def hostPresent (lib : UrlLib) (baseURL : String) : Bool :=
  match lib.Parse baseURL with
  | some u => decide (lib.Host u ≠ "")
  | none => false

/-- The call `http.Get(baseURL)` with the status test and `html.Parse` that follow it; `resp`
is what the network answers. For a URL without host the client of `net/http` sends nothing
and returns the error "no Host in request URL". The client's test of the scheme is left
out: the model lets the network answer for every URL with a host. -/
def httpGet (lib : UrlLib) (baseURL : String) (resp : Option Node) : Option Node :=
  if hostPresent lib baseURL then resp else none

/-- The requests that the default client of `net/http` sends for the calls of `http.Get`: one
for the argument of a call, then one for the target of each redirect it follows.
`redirects url` are the targets that the servers name, in order, when `url` is requested. -/
def httpRequests (lib : UrlLib) (redirects : String → List String) (fetched : List String) :
    List String :=
  fetched.flatMap fun url => if hostPresent lib url then url :: redirects url else []

/-- What one step of a goroutine leaves: the collector, the goroutine, the arguments of the
goroutines it launched and of the calls of `http.Get` it made. -/
structure Progress where
  lc : LinkCollector
  task : Task
  launched : List String
  fetched : List String

/-- The method `CollectLinks`, one operation on shared state at a time. `resp` is the answer
of the network, read only at the call of `http.Get`: `none` for a transport error, a status
other than 200 or an HTML parse error, `some doc` for a page that was fetched, maybe after
redirects, and parsed. The result is `none`
when the goroutine cannot move (it has returned, or waits for a slot) and when the step
panics, which ends the process.

`SaveVisitedLinks` and `SaveDomainList`, called after the extraction, write files and leave
the collector as it is; they are part of the last step, with the deferred calls. -/
def CollectLinks (lib : UrlLib) (lc : LinkCollector) (resp : Option Node) :
    Task → Option Progress
  | .launched baseURL =>
    match lib.Parse baseURL with
    | none => none
    | some u =>
      if lc.blocklist.contains (lib.Host u) then
        some { lc := lc, task := .returned baseURL, launched := [], fetched := [] }
      else
        some { lc := lc, task := .admission baseURL, launched := [], fetched := [] }
  | .admission baseURL =>
    if lc.semCur + 1 ≤ lc.semSize then
      some { lc := { lc with semCur := lc.semCur + 1 }, task := .fetching baseURL,
             launched := [], fetched := [] }
    else none
  | .fetching baseURL =>
    match httpGet lib baseURL resp with
    | none =>
      (deferred lc).map fun lc1 =>
        { lc := lc1, task := .returned baseURL, launched := [], fetched := [baseURL] }
    | some doc =>
      some { lc := lc, task := .extracting baseURL (linkCalls doc baseURL), launched := [],
             fetched := [baseURL] }
  | .extracting baseURL ((link, base) :: calls) =>
    (AddLink lib lc link base).map fun r =>
      { lc := r.1, task := .extracting baseURL calls, launched := r.2, fetched := [] }
  | .extracting baseURL [] =>
    (deferred lc).map fun lc1 =>
      { lc := lc1, task := .returned baseURL, launched := [], fetched := [] }
  | .returned _ => none

/-- One step of goroutine `i` in a crawl: the goroutines it launches join the others. -/
def step (lib : UrlLib) (w : World) (i : Nat) (resp : Option Node) : Option World :=
  match w.tasks[i]? with
  | none => none
  | some t =>
    (CollectLinks lib w.lc resp t).map fun p =>
      { lc := p.lc
        tasks := w.tasks.set i p.task ++ p.launched.map Task.launched
        fetched := w.fetched ++ p.fetched }

/-- A schedule: which goroutine moves, and what the network answers if it fetches. -/
abbrev Schedule := List (Nat × Option Node)

/-- The crawl under a schedule; `none` if some step of the schedule is not possible. -/
def run (lib : UrlLib) (w : World) : Schedule → Option World
  | [] => some w
  | (i, resp) :: rest => (step lib w i resp).bind fun w1 => run lib w1 rest

/-- The function `main` up to `Wg.Wait()`: the collector is made with five slots, the counter
is raised to one and the seed goroutine is started. `none` when the start URL does not
parse. -/
def mainStart (lib : UrlLib) (b : String) (startURL : String) : Option World :=
  match lib.Parse startURL with
  | none => none
  | some parsedURL =>
    let lc := NewLinkCollector 5 b
    some { lc := { lc with Wg := lc.Wg + 1 }
           tasks := [Task.launched (lib.UrlString parsedURL)]
           fetched := [] }

/-- The states a crawl started by `main` can be in. -/
def Reachable (lib : UrlLib) (b : String) (startURL : String) (w : World) : Prop :=
  ∃ w0 sched, mainStart lib b startURL = some w0 ∧ run lib w0 sched = some w

/-! ## A model of `net/url` for concrete crawls

The functions of Go `net/url` on the URLs that consist of a scheme, a host and a path:
strings over letters, digits and the characters `. - _ ~ / :`. User information, query,
fragment and escapes are outside this fragment: `goParse` answers `none` for a string with any
other character, also where `url.Parse` accepts it, so the model stands for `net/url` only at
strings of the fragment. The one escape that `URL.String` itself writes, `%2F` for the first
slash of a path that would else read as a host, is accepted in the opaque part of a URL,
which is where it comes to stand. -/

/-- The fields of `url.URL` that such URLs use. -/
structure GoURL where
  Scheme : String
  Opaque : String
  Host : String
  Path : String
  OmitHost : Bool
deriving DecidableEq, Repr

/-- The characters of the modelled fragment. -/
def plainChar (c : Char) : Bool :=
  c.isAlphanum || c = '.' || c = '-' || c = '_' || c = '~' || c = '/' || c = ':'

/-- The function `getScheme`: `none` is the error "missing protocol scheme", else the scheme
and the rest. The first argument is the part of the input already read. -/
def getScheme (seen : List Char) : List Char → Option (List Char × List Char)
  | [] => some ([], seen)
  | c :: cs =>
    if c.isAlpha then getScheme (seen ++ [c]) cs
    else if c.isDigit || c = '+' || c = '-' || c = '.' then
      if seen = [] then some ([], c :: cs) else getScheme (seen ++ [c]) cs
    else if c = ':' then
      if seen = [] then none else some (seen, cs)
    else some ([], seen ++ c :: cs)

/-- The test `validOptionalPort` on what follows the host name: empty, or a colon and
digits. -/
def validOptionalPort : List Char → Bool
  | [] => true
  | c :: cs => c = ':' && cs.all Char.isDigit

/-- The part of `url.Parse` after the scheme is split off: `scheme` is the scheme in lower
case, `rest` what follows its colon (the whole input when there is no scheme). A host may
hold one colon, before its port. -/
def parseRest (scheme rest : List Char) : Option GoURL :=
  if !hasPrefixChars rest ['/'] then
    if scheme ≠ [] then
      some { Scheme := String.mk scheme, Opaque := String.mk rest, Host := "", Path := "",
             OmitHost := false }
    else if '%' ∈ rest then none
    else if (rest.takeWhile (fun c => c ≠ '/')).contains ':' then none
    else
      some { Scheme := "", Opaque := "", Host := "", Path := String.mk rest,
             OmitHost := false }
  else if '%' ∈ rest then none
  else if (scheme ≠ [] || !hasPrefixChars rest ['/', '/', '/'])
      && hasPrefixChars rest ['/', '/'] then
    let authority := (rest.drop 2).takeWhile (fun c => c ≠ '/')
    let rest := (rest.drop 2).dropWhile (fun c => c ≠ '/')
    if validOptionalPort (authority.dropWhile (fun c => c ≠ ':')) then
      some { Scheme := String.mk scheme, Opaque := "", Host := String.mk authority,
             Path := String.mk rest, OmitHost := false }
    else none
  else
    some { Scheme := String.mk scheme, Opaque := "", Host := "", Path := String.mk rest,
           OmitHost := decide (scheme ≠ []) }

/-- The function `url.Parse` on the modelled fragment. -/
def goParse (rawURL : String) : Option GoURL :=
  if !rawURL.data.all (fun c => plainChar c || c = '%') then none
  else
    match getScheme [] rawURL.data with
    | none => none
    | some (scheme, rest) => parseRest (scheme.map Char.toLower) rest

/-- The method `URL.String` on the modelled fragment, on characters: the scheme with its
colon, the opaque part or else the authority and the path. Where the host is omitted after a
scheme and the path starts with two slashes, the first slash is written `%2F`. -/
def goStringChars (u : GoURL) : List Char :=
  let scheme := if u.Scheme.data ≠ [] then u.Scheme.data ++ [':'] else []
  if u.Opaque.data ≠ [] then scheme ++ u.Opaque.data
  else
    let authority :=
      if u.Scheme.data ≠ [] ∨ u.Host.data ≠ [] then
        if u.OmitHost = true ∧ u.Host.data = [] then []
        else (if u.Host.data ≠ [] ∨ u.Path.data ≠ [] then ['/', '/'] else []) ++ u.Host.data
      else []
    let slash :=
      if u.Path.data ≠ [] ∧ u.Path.data.head? ≠ some '/' ∧ u.Host.data ≠ [] then ['/'] else []
    let dot :=
      if scheme ++ authority ++ slash = [] ∧
          (u.Path.data.takeWhile (fun c => c ≠ '/')).contains ':' = true then ['.', '/']
      else []
    let path :=
      if u.Scheme.data ≠ [] ∧ u.OmitHost = true ∧ u.Host.data = [] ∧
          hasPrefixChars u.Path.data ['/', '/'] = true then
        '%' :: '2' :: 'F' :: u.Path.data.drop 1
      else u.Path.data
    scheme ++ authority ++ slash ++ dot ++ path

/-- The method `URL.String` on the modelled fragment. -/
def goString (u : GoURL) : String :=
  String.mk (goStringChars u)

/-- The text before the last `/` of a string (`str[:strings.LastIndexByte(str, '/')]`). -/
def beforeLastSlash (str : List Char) : List Char :=
  ((str.reverse.dropWhile (fun c => c ≠ '/')).drop 1).reverse

/-- The loop of `resolvePath` over the path elements: `dst` is the builder, `first` the flag
of the same name. An element `..` drops the last element written; when nothing is left but
the leading slash, the flag is set again. -/
def resolveLoop : List (List Char) → List Char → Bool → List Char
  | [], dst, _ => dst
  | elem :: rest, dst, first =>
    if elem = ['.'] then
      if rest = [] then dst ++ ['/'] else resolveLoop rest dst false
    else if elem = ['.', '.'] then
      let kept := beforeLastSlash (dst.drop 1)
      let dst1 := '/' :: kept
      let first1 := if kept = [] then true else first
      if rest = [] then dst1 ++ ['/'] else resolveLoop rest dst1 first1
    else
      resolveLoop rest ((if first then dst else dst ++ ['/']) ++ elem) false

/-- The function `resolvePath`. -/
def resolvePath (base ref : List Char) : List Char :=
  let full :=
    match ref with
    | [] => base
    | c :: _ =>
      if c ≠ '/' then (base.reverse.dropWhile (fun c => c ≠ '/')).reverse ++ ref else ref
  if full = [] then []
  else
    let r := resolveLoop (splitChars '/' full) ['/'] true
    match r with
    | _ :: '/' :: rest => '/' :: rest
    | _ => r

/-- The method `ResolveReference` on a receiver that is not nil. -/
def goResolveReference (u ref : GoURL) : GoURL :=
  let scheme := if ref.Scheme = "" then u.Scheme else ref.Scheme
  if ref.Scheme ≠ "" ∨ ref.Host ≠ "" then
    { ref with Scheme := scheme, Path := String.mk (resolvePath ref.Path.data []) }
  else if ref.Opaque ≠ "" then
    { ref with Scheme := scheme, Host := "", Path := "" }
  else if ref.Path = "" ∧ u.Opaque ≠ "" then
    { ref with Scheme := scheme, Opaque := u.Opaque, Host := "", Path := "" }
  else
    { ref with Scheme := scheme, Host := u.Host,
               Path := String.mk (resolvePath u.Path.data ref.Path.data) }

/-- The method `ResolveReference` on a nil receiver: the receiver is read, and the call
panics, unless the reference has a scheme. -/
def goResolveReferenceNil (ref : GoURL) : Option GoURL :=
  if ref.Scheme = "" then none
  else some { ref with Path := String.mk (resolvePath ref.Path.data []) }

/-- The model of `net/url` as a `UrlLib`. -/
def goUrl : UrlLib where
  URL := GoURL
  Parse := goParse
  Host := GoURL.Host
  ResolveReference := goResolveReference
  ResolveReferenceNil := goResolveReferenceNil
  UrlString := goString

/-! ## Concrete pages and schedules -/

/-- The element `<a href="..."></a>`. -/
def anchor (href : String) : Node :=
  Node.mk NodeType.ElementNode "a" [⟨"", "href", href⟩] []

/-- The tree `html.Parse` builds for a page whose body holds the given elements. -/
def page (body : List Node) : Node :=
  Node.mk NodeType.DocumentNode "" []
    [Node.mk NodeType.ElementNode "html" []
      [Node.mk NodeType.ElementNode "head" [] [],
       Node.mk NodeType.ElementNode "body" [] body]]

/-- A crawl from `main` under a schedule. -/
def crawl (lib : UrlLib) (b startURL : String) (sched : Schedule) : Option World :=
  (mainStart lib b startURL).bind fun w0 => run lib w0 sched

/-- The seed page of the scenario: `<a href="/page2">` and `<a href="http://blocked.test/x">`. -/
def seedPage : Node := page [anchor "/page2", anchor "http://blocked.test/x"]

/-- A schedule of the scenario: the seed goroutine runs to its return, fetching `seedPage`,
then the goroutine of `/page2` runs to its return, fetching a page without links. -/
def scenarioSchedule : Schedule :=
  [(0, none), (0, none), (0, some seedPage), (0, none), (0, none), (0, none),
   (1, none), (1, none), (1, some (page [])), (1, none)]

/-- The state in which the scenario ends. -/
def scenarioEnd : World :=
  (crawl goUrl "blocked.test" "https://a.test/index.html" scenarioSchedule).getD
    { lc := NewLinkCollector 5 "", tasks := [], fetched := [] }

/-- A web in which the server of "https://a.test/index.html" answers with a redirect to
"http://blocked.test/x". -/
def redirectWeb (url : String) : List String :=
  if url = "https://a.test/index.html" then ["http://blocked.test/x"] else []

/-- A schedule in which the seed goroutine runs to its return and its `http.Get` yields a
page without links. -/
def redirectSchedule : Schedule :=
  [(0, none), (0, none), (0, some (page [])), (0, none)]

/-- The state in which the crawl of `redirectSchedule` ends. -/
def redirectEnd : World :=
  (crawl goUrl "blocked.test" "https://a.test/index.html" redirectSchedule).getD
    { lc := NewLinkCollector 5 "", tasks := [], fetched := [] }

/-- A page that links to itself: `<a href="/index.html">`. -/
def selfPage : Node := page [anchor "/index.html"]

/-- A schedule in which the seed goroutine fetches `selfPage` and handles its one link. -/
def selfSchedule : Schedule :=
  [(0, none), (0, none), (0, some selfPage), (0, none)]

/-- A collector with four recorded domains, and the blocklist of the payload
"blocked.test\ngoogle.com". -/
def sampleCollector : LinkCollector :=
  { VisitedLinks := ⟨["https://a.test/page2"], by decide⟩
    DomainList :=
      ⟨["a.test", "ads.example.com", "google.com", "downloads.yahoo.com"], by decide⟩
    Wg := 1
    semSize := 5
    semCur := 0
    blocklist := newBlocklist "blocked.test\ngoogle.com" }

/-- An enumeration of the domains of `sampleCollector`: the keys, last to first. -/
def sampleOrder : List String := sampleCollector.DomainList.keys.reverse

/-- The environment in which every call of `SaveDomainList` succeeds. -/
def allOk : SaveEnv :=
  { createOk := true, marshalOk := true, writeOk := true, writeFileOk := true }

/-- The state of the crawl of the seed "http://blocked.test/x" under the blocklist
"blocked.test", after the one step its seed goroutine can take. -/
def blockedSeedEnd : World :=
  (crawl goUrl "blocked.test" "http://blocked.test/x" [(0, none)]).getD
    { lc := NewLinkCollector 5 "", tasks := [], fetched := [] }

/-! ### The specification's notions -/

/-- Spec: `k` is a substring of `D`. -/
def IsSubstring (k D : String) : Prop :=
  ∃ pre post : List Char, D.data = pre ++ k.data ++ post

/-- Spec: the resolution of `AddLink`: a link without host is resolved against the base. -/
def resolvedLink (lib : UrlLib) (parsedBase parsedLink : lib.URL) : lib.URL :=
  if lib.Host parsedLink = "" then lib.ResolveReference parsedBase parsedLink else parsedLink

/-- The property of Go `net/url` that the blocklist filter of `AddLink` rests on: the string
of a URL that `AddLink` records parses back to the host it was rendered with. For a parsed
link that carries a host, that is its host; for a parsed link without host, resolved against
the parsed URL of a page with a host, it is the host of the page, or none. -/
def RenderKeepsHost (lib : UrlLib) : Prop :=
  (∀ (link : String) (parsedLink v : lib.URL), lib.Parse link = some parsedLink →
    lib.Host parsedLink ≠ "" → lib.Parse (lib.UrlString parsedLink) = some v →
    lib.Host v = lib.Host parsedLink) ∧
  (∀ (base link : String) (parsedBase parsedLink v : lib.URL),
    lib.Parse base = some parsedBase → lib.Host parsedBase ≠ "" →
    lib.Parse link = some parsedLink → lib.Host parsedLink = "" →
    lib.Parse (lib.UrlString (lib.ResolveReference parsedBase parsedLink)) = some v →
    lib.Host v = lib.Host parsedBase ∨ lib.Host v = "")

/-! ### Invariants of a crawl -/

/-- Whether `CollectLinks` returns on its blocklist test for this argument. -/
def hostBlocked (lib : UrlLib) (bl : blocklist) (baseURL : String) : Bool :=
  match lib.Parse baseURL with
  | some u => bl.contains (lib.Host u)
  | none => false

/-- The number of goroutines that returned on the blocklist test. -/
def World.skipped (lib : UrlLib) (w : World) : Nat :=
  (w.tasks.filter (fun t => t.finished && hostBlocked lib w.lc.blocklist t.baseURL)).length

/-- A goroutine past the blocklist test has an argument that parses, with a host that is not
blocklisted; one that extracts links got a page, so its argument has a host, and the calls
of `AddLink` it has yet to make carry that argument as base. -/
def TaskOk (lib : UrlLib) (bl : blocklist) : Task → Prop
  | .launched _ => True
  | .admission baseURL => hostBlocked lib bl baseURL = false ∧ (lib.Parse baseURL).isSome
  | .fetching baseURL => hostBlocked lib bl baseURL = false ∧ (lib.Parse baseURL).isSome
  | .extracting baseURL calls =>
    (hostBlocked lib bl baseURL = false ∧ (lib.Parse baseURL).isSome) ∧
      hostPresent lib baseURL = true ∧ ∀ c ∈ calls, c.2 = baseURL
  | .returned _ => True

/-- The invariant of a crawl with blocklist `bl` whose seed goroutine got `seed`. -/
structure CrawlInv (lib : UrlLib) (bl : blocklist) (seed : String) (w : World) : Prop where
  blocklist_eq : w.lc.blocklist = bl
  visited : RenderKeepsHost lib → ∀ s ∈ w.lc.VisitedLinks.keys,
    ∀ v, lib.Parse s = some v → bl.contains (lib.Host v) = false
  fetched : ∀ s ∈ w.fetched, ∃ u, lib.Parse s = some u ∧ bl.contains (lib.Host u) = false
  tasks : ∀ t ∈ w.tasks, TaskOk lib bl t
  launches : w.launches = seed :: w.lc.VisitedLinks.keys
  counter : w.lc.Wg = (w.unfinished : Int) + (w.skipped lib : Int)

/-! ### The shape of parsed URLs -/

/-- The characters of a scheme after its first letter. -/
def schemeChar (c : Char) : Bool :=
  c.isAlpha || c.isDigit || c = '+' || c = '-' || c = '.'

/-- A scheme as `getScheme` accepts it: a letter, then scheme characters. -/
def validScheme : List Char → Prop
  | [] => False
  | c :: t => c.isAlpha = true ∧ ∀ x ∈ t, schemeChar x = true

/-- What `goParse` returns: the scheme is none or valid, and the URL is opaque (a scheme and
a rest that does not start with a slash), or has an authority (a host without slash, a path
that is empty or starts with a slash), or has neither scheme nor host, or has a scheme, an
omitted host and a path that starts with a slash. -/
def ParsedShape (u : GoURL) : Prop :=
  (u.Scheme.data = [] ∨ validScheme u.Scheme.data) ∧
  ((u.Scheme.data ≠ [] ∧ u.Host.data = [] ∧ u.Path.data = [] ∧ u.OmitHost = false ∧
      u.Opaque.data.head? ≠ some '/') ∨
    (u.Opaque.data = [] ∧ u.OmitHost = false ∧ (∀ c ∈ u.Host.data, c ≠ '/') ∧
      (u.Path.data = [] ∨ u.Path.data.head? = some '/')) ∨
    (u.Scheme.data = [] ∧ u.Opaque.data = [] ∧ u.Host.data = [] ∧ u.OmitHost = false) ∨
    (u.Scheme.data ≠ [] ∧ u.Opaque.data = [] ∧ u.Host.data = [] ∧ u.OmitHost = true ∧
      u.Path.data.head? = some '/'))

/-- The pieces joined by newlines, on characters. -/
def joinChars : List (List Char) → List Char
  | [] => []
  | [a] => a
  | a :: b :: rest => a ++ '\n' :: joinChars (b :: rest)

/-! # Theorems -/

/-! ## Strings -/

theorem hasPrefixChars_iff (s p : List Char) :
    hasPrefixChars s p = true ↔ ∃ post, s = p ++ post := by
  induction p generalizing s with
  | nil => cases s <;> simp [hasPrefixChars]
  | cons b p ih =>
    cases s with
    | nil => simp [hasPrefixChars]
    | cons a s =>
      simp only [hasPrefixChars, Bool.and_eq_true, beq_iff_eq, ih, List.cons_append,
        List.cons.injEq]
      constructor
      · rintro ⟨h, post, hp⟩
        exact ⟨post, h, hp⟩
      · rintro ⟨post, h, hp⟩
        exact ⟨h, post, hp⟩

theorem containsChars_iff (s sub : List Char) :
    containsChars s sub = true ↔ ∃ pre post, s = pre ++ sub ++ post := by
  induction s with
  | nil =>
    simp only [containsChars, hasPrefixChars_iff]
    constructor
    · rintro ⟨post, h⟩
      exact ⟨[], post, by simpa using h⟩
    · rintro ⟨pre, post, h⟩
      have h1 : pre ++ sub ++ post = [] := h.symm
      simp only [List.append_eq_nil] at h1
      exact ⟨[], by simp [h1.1.2]⟩
  | cons a s ih =>
    simp only [containsChars, Bool.or_eq_true, hasPrefixChars_iff, ih]
    constructor
    · rintro (⟨post, h⟩ | ⟨pre, post, h⟩)
      · exact ⟨[], post, by simpa using h⟩
      · exact ⟨a :: pre, post, by simp [h]⟩
    · rintro ⟨pre, post, h⟩
      cases pre with
      | nil => exact Or.inl ⟨post, by simpa using h⟩
      | cons c pre =>
        simp only [List.cons_append, List.cons.injEq] at h
        exact Or.inr ⟨pre, post, by simpa using h.2⟩

theorem Contains_iff (D k : String) : Contains D k = true ↔ IsSubstring k D := by
  unfold Contains IsSubstring
  exact containsChars_iff D.data k.data

theorem ContainsAny_iff_substring (D : String) (ks : List String) :
    ContainsAny D ks = true ↔
      (∃ k ∈ ks, IsSubstring k D) ∧ ¬ IsSubstring "downloads" D := by
  induction ks with
  | nil => simp [ContainsAny]
  | cons c comp ih =>
    unfold ContainsAny
    by_cases hc : Contains D c = true
    · by_cases hd : Contains D "downloads" = true
      · have hd2 := (Contains_iff D "downloads").1 hd
        simp only [hc, hd, Bool.not_true, Bool.and_false, Bool.false_eq_true, if_false, ih]
        constructor
        · rintro ⟨_, h⟩
          exact absurd hd2 h
        · rintro ⟨_, h⟩
          exact absurd hd2 h
      · have hd2 : ¬ IsSubstring "downloads" D := fun h => hd ((Contains_iff D "downloads").2 h)
        have hd3 : Contains D "downloads" = false := by simpa using hd
        simp only [hc, hd3, Bool.not_false, Bool.and_self, if_true, true_iff]
        exact ⟨⟨c, List.mem_cons_self c comp, (Contains_iff D c).1 hc⟩, hd2⟩
    · have hc2 : ¬ IsSubstring c D := fun h => hc ((Contains_iff D c).2 h)
      have hc3 : Contains D c = false := by simpa using hc
      simp only [hc3, Bool.false_and, Bool.false_eq_true, if_false, ih, List.mem_cons]
      constructor
      · rintro ⟨⟨k, hk, hs⟩, hd⟩
        exact ⟨⟨k, Or.inr hk, hs⟩, hd⟩
      · rintro ⟨⟨k, hk | hk, hs⟩, hd⟩
        · exact absurd (hk ▸ hs) hc2
        · exact ⟨⟨k, hk, hs⟩, hd⟩

/-! ## Maps -/

theorem StrSet_contains_iff (m : StrSet) (k : String) : m.contains k = true ↔ k ∈ m.keys := by
  simp [StrSet.contains]

theorem StrSet_contains_false_iff (m : StrSet) (k : String) :
    m.contains k = false ↔ k ∉ m.keys := by
  simp [StrSet.contains]

theorem StrSet_mem_insert (m : StrSet) (k x : String) :
    x ∈ (m.insert k).keys ↔ x = k ∨ x ∈ m.keys := by
  unfold StrSet.insert
  by_cases h : k ∈ m.keys
  · simp only [h, dif_pos]
    constructor
    · exact Or.inr
    · rintro (rfl | hx)
      · exact h
      · exact hx
  · simp only [h, dif_neg, not_false_eq_true, List.mem_append, List.mem_singleton]
    exact Or.comm

theorem StrSet_mem_foldl_insert (xs : List String) (m : StrSet) (x : String) :
    x ∈ (xs.foldl (fun bl host => bl.insert host) m).keys ↔ x ∈ m.keys ∨ x ∈ xs := by
  induction xs generalizing m with
  | nil => simp
  | cons a xs ih =>
    simp only [List.foldl_cons, ih, StrSet_mem_insert, List.mem_cons]
    tauto

/-! ## SaveDomainList -/

theorem domainLoop_foldl (bl : blocklist) (order : List String) (acc : List String × List String) :
    order.foldl
      (fun acc domain =>
        let domains := if bl.contains domain then acc.1 else acc.1 ++ [domain]
        let badDomains := if ContainsAny domain anyof then acc.2 ++ [domain] else acc.2
        (domains, badDomains))
      acc =
    (acc.1 ++ order.filter (fun d => !bl.contains d),
     acc.2 ++ order.filter (fun d => ContainsAny d anyof)) := by
  induction order generalizing acc with
  | nil => simp
  | cons d order ih =>
    simp only [List.foldl_cons, ih, List.filter_cons]
    by_cases h1 : bl.contains d = true <;> by_cases h2 : ContainsAny d anyof = true <;>
      simp [h1, h2]

theorem domainLoop_eq (bl : blocklist) (order : List String) :
    domainLoop bl order =
      (order.filter (fun d => !bl.contains d), order.filter (fun d => ContainsAny d anyof)) := by
  unfold domainLoop
  rw [domainLoop_foldl]
  simp

/-- C6: `ContainsAny D ks` holds exactly when some keyword of `ks` is a substring of `D` and
"downloads" is not (so never for an empty keyword list), and for every enumeration `order`
of the domain set the slice `badDomains` of `SaveDomainList` holds `D` exactly when `D` is a
member of `DomainList`, has a keyword of `anyof` as a substring and does not have "downloads"
as one, whatever the blocklist is; that slice, joined by newlines, is what is written to
`bad_domains.txt`. -/
theorem ContainsAny_and_badDomains (D : String) (ks : List String) (lc : LinkCollector)
    (filename : String) (order : List String) (env : SaveEnv)
    (horder : order.Perm lc.DomainList.keys) :
    (ContainsAny D ks = true ↔
      (∃ k ∈ ks, IsSubstring k D) ∧ ¬ IsSubstring "downloads" D) ∧
    ContainsAny D [] = false ∧
    (D ∈ (SaveDomainList lc filename order env).badDomains ↔
      D ∈ lc.DomainList.keys ∧
        (∃ k ∈ anyof, IsSubstring k D) ∧ ¬ IsSubstring "downloads" D) ∧
    (∀ name text, (name, FileData.text text) ∈ (SaveDomainList lc filename order env).files →
      name = "bad_domains.txt" ∧
        text = Join (SaveDomainList lc filename order env).badDomains "\n") ∧
    (env.createOk = true → env.marshalOk = true → env.writeOk = true →
      env.writeFileOk = true →
      ("bad_domains.txt",
          FileData.text (Join (SaveDomainList lc filename order env).badDomains "\n")) ∈
        (SaveDomainList lc filename order env).files) := by
  refine ⟨ContainsAny_iff_substring D ks, rfl, ?_, ?_, ?_⟩
  · simp only [SaveDomainList, domainLoop_eq, List.mem_filter, horder.mem_iff,
      ContainsAny_iff_substring]
  · intro name text h
    simp only [SaveDomainList] at h ⊢
    split_ifs at h <;> simp_all
  · intro h1 h2 h3 h4
    simp [SaveDomainList, h1, h2, h3, h4]

/-- C7: for every enumeration `order` of the domain set, the slice `domains` that
`SaveDomainList` serialises holds exactly the members of `DomainList` that are not
blocklisted, each once; the only JSON data written are that slice, to the named file; and
the collector, with `VisitedLinks` and `DomainList`, is left as it was. -/
theorem SaveDomainList_domains (lc : LinkCollector) (filename : String) (order : List String)
    (env : SaveEnv) (horder : order.Perm lc.DomainList.keys) :
    (∀ d, d ∈ (SaveDomainList lc filename order env).domains ↔
      d ∈ lc.DomainList.keys ∧ lc.blocklist.contains d = false) ∧
    (SaveDomainList lc filename order env).domains.Nodup ∧
    (∀ d, d ∈ lc.DomainList.keys → lc.blocklist.contains d = false →
      (SaveDomainList lc filename order env).domains.count d = 1) ∧
    (∀ d, lc.blocklist.contains d = true →
      d ∉ (SaveDomainList lc filename order env).domains) ∧
    (∀ name xs, (name, FileData.json xs) ∈ (SaveDomainList lc filename order env).files →
      name = filename ∧ xs = (SaveDomainList lc filename order env).domains) ∧
    (env.createOk = true → env.marshalOk = true → env.writeOk = true →
      (filename, FileData.json (SaveDomainList lc filename order env).domains) ∈
        (SaveDomainList lc filename order env).files) ∧
    (SaveDomainList lc filename order env).lc = lc ∧
    (SaveDomainList lc filename order env).lc.VisitedLinks = lc.VisitedLinks ∧
    (SaveDomainList lc filename order env).lc.DomainList = lc.DomainList := by
  have hnodup : (order.filter (fun d => !lc.blocklist.contains d)).Nodup :=
    (horder.nodup_iff.2 lc.DomainList.nodup).filter _
  have hmem : ∀ d, d ∈ order.filter (fun d => !lc.blocklist.contains d) ↔
      d ∈ lc.DomainList.keys ∧ lc.blocklist.contains d = false := by
    intro d
    simp [List.mem_filter, horder.mem_iff]
  refine ⟨?_, ?_, ?_, ?_, ?_, ?_, rfl, rfl, rfl⟩
  · intro d
    simpa only [SaveDomainList, domainLoop_eq] using hmem d
  · simpa only [SaveDomainList, domainLoop_eq] using hnodup
  · intro d hd hb
    simp only [SaveDomainList, domainLoop_eq]
    exact List.count_eq_one_of_mem hnodup ((hmem d).2 ⟨hd, hb⟩)
  · intro d hb hd
    simp only [SaveDomainList, domainLoop_eq] at hd
    have := ((hmem d).1 hd).2
    rw [hb] at this
    exact Bool.noConfusion this
  · intro name xs h
    simp only [SaveDomainList] at h ⊢
    split_ifs at h <;> simp_all
  · intro h1 h2 h3
    simp only [SaveDomainList, h1, h2, h3]
    cases env.writeFileOk <;> simp

/-! ## The blocklist -/

theorem splitChars_ne_nil (sep : Char) (l : List Char) : splitChars sep l ≠ [] := by
  cases l with
  | nil => simp [splitChars]
  | cons c cs =>
    unfold splitChars
    split_ifs
    · simp
    · split <;> simp

theorem joinChars_splitChars (l : List Char) : joinChars (splitChars '\n' l) = l := by
  induction l with
  | nil => rfl
  | cons c cs ih =>
    unfold splitChars
    by_cases hc : c = '\n'
    · simp only [hc, if_true]
      cases hs : splitChars '\n' cs with
      | nil => exact absurd hs (splitChars_ne_nil _ _)
      | cons seg rest =>
        rw [hs] at ih
        simp [joinChars, ih]
    · simp only [hc, if_false]
      cases hs : splitChars '\n' cs with
      | nil => exact absurd hs (splitChars_ne_nil _ _)
      | cons seg rest =>
        rw [hs] at ih
        cases rest with
        | nil =>
          simp only [joinChars] at ih ⊢
          rw [ih]
        | cons b rest =>
          simp only [joinChars, List.cons_append] at ih ⊢
          rw [ih]

theorem splitChars_no_sep (a : List Char) (ha : '\n' ∉ a) : splitChars '\n' a = [a] := by
  induction a with
  | nil => rfl
  | cons c a ih =>
    simp only [List.mem_cons, not_or] at ha
    have hc : c ≠ '\n' := fun h => ha.1 h.symm
    unfold splitChars
    simp [hc, ih ha.2]

theorem splitChars_append_sep (a rest : List Char) (ha : '\n' ∉ a) :
    splitChars '\n' (a ++ '\n' :: rest) = a :: splitChars '\n' rest := by
  induction a with
  | nil => simp [splitChars]
  | cons c a ih =>
    simp only [List.mem_cons, not_or] at ha
    have hc : c ≠ '\n' := fun h => ha.1 h.symm
    simp only [List.cons_append]
    rw [splitChars]
    simp [hc, ih ha.2]

theorem splitChars_joinChars (segs : List (List Char)) (hne : segs ≠ [])
    (hseg : ∀ s ∈ segs, '\n' ∉ s) : splitChars '\n' (joinChars segs) = segs := by
  induction segs with
  | nil => exact absurd rfl hne
  | cons a segs ih =>
    cases segs with
    | nil => exact splitChars_no_sep a (hseg a (List.mem_cons_self _ _))
    | cons b rest =>
      simp only [joinChars]
      rw [splitChars_append_sep a _ (hseg a (List.mem_cons_self _ _)),
        ih (List.cons_ne_nil _ _) (fun s hs => hseg s (List.mem_cons_of_mem _ hs))]

theorem splitChars_no_sep_mem (l seg : List Char) (h : seg ∈ splitChars '\n' l) :
    '\n' ∉ seg := by
  induction l generalizing seg with
  | nil =>
    simp only [splitChars, List.mem_singleton] at h
    simp [h]
  | cons c cs ih =>
    unfold splitChars at h
    by_cases hc : c = '\n'
    · simp only [hc, if_true, List.mem_cons] at h
      rcases h with h | h
      · simp [h]
      · exact ih seg h
    · simp only [hc, if_false] at h
      cases hs : splitChars '\n' cs with
      | nil => exact absurd hs (splitChars_ne_nil _ _)
      | cons s rest =>
        rw [hs] at h ih
        simp only [List.mem_cons] at h
        rcases h with h | h
        · subst h
          simp only [List.mem_cons, not_or]
          exact ⟨fun h => hc h.symm, ih s (List.mem_cons_self _ _)⟩
        · exact ih seg (List.mem_cons_of_mem _ h)

theorem Join_data (lines : List String) :
    (Join lines "\n").data = joinChars (lines.map String.data) := by
  induction lines with
  | nil => rfl
  | cons a lines ih =>
    cases lines with
    | nil => rfl
    | cons b rest =>
      simp only [Join, String.data_append, List.map_cons, joinChars] at ih ⊢
      rw [ih]
      simp

theorem Join_Split (p : String) : Join (Split p '\n') "\n" = p := by
  apply String.ext
  rw [Join_data]
  unfold Split
  rw [List.map_map]
  have : (String.data ∘ String.mk) = id := by
    funext l
    rfl
  rw [this, List.map_id, joinChars_splitChars]

theorem Split_Join (lines : List String) (hne : lines ≠ [])
    (hline : ∀ l ∈ lines, '\n' ∉ l.data) : Split (Join lines "\n") '\n' = lines := by
  unfold Split
  rw [Join_data, splitChars_joinChars _ (by simpa using hne)
    (by
      intro s hs
      rw [List.mem_map] at hs
      obtain ⟨l, hl, rfl⟩ := hs
      exact hline l hl),
    List.map_map]
  have : (String.mk ∘ String.data) = id := by
    funext l
    rfl
  rw [this, List.map_id]

theorem newBlocklist_contains_iff (p h : String) :
    (newBlocklist p).contains h = true ↔ h ∈ Split p '\n' := by
  rw [StrSet_contains_iff, newBlocklist, StrSet_mem_foldl_insert]
  simp [StrSet.empty]

/-- C8 as stated fails: the empty string is a member of the blocklist built from the empty
payload, from a payload with a trailing newline, and from one with two newlines in a row;
a line of one space is a member as well. -/
theorem newBlocklist_keeps_blank_lines :
    (newBlocklist "").contains "" = true ∧
    (newBlocklist "a.test\n").contains "" = true ∧
    (newBlocklist "a.test\n\nb.test").contains "" = true ∧
    (newBlocklist "a.test\n \nb.test").contains " " = true := by
  decide

/-- C8, amended: the blocklist built from the payload `p` contains `h` exactly when `h` is,
as a whole string and compared by equality, one of the lines of `p`, where the lines of `p`
are the one non-empty list of newline-free strings that joined by newlines give `p`; empty
and blank lines are lines. -/
theorem newBlocklist_contains_lines (p h : String) :
    ((newBlocklist p).contains h = true ↔
      ∃ lines : List String, lines ≠ [] ∧ (∀ l ∈ lines, '\n' ∉ l.data) ∧
        Join lines "\n" = p ∧ h ∈ lines) ∧
    (∀ lines : List String, lines ≠ [] → (∀ l ∈ lines, '\n' ∉ l.data) →
      Join lines "\n" = p → ((newBlocklist p).contains "" = true ↔ "" ∈ lines)) := by
  have hsplit : ∀ lines : List String, lines ≠ [] → (∀ l ∈ lines, '\n' ∉ l.data) →
      Join lines "\n" = p → Split p '\n' = lines := by
    intro lines hne hline hp
    rw [← hp]
    exact Split_Join lines hne hline
  constructor
  · rw [newBlocklist_contains_iff]
    constructor
    · intro hmem
      refine ⟨Split p '\n', ?_, ?_, Join_Split p, hmem⟩
      · unfold Split
        simpa using splitChars_ne_nil '\n' p.data
      · intro l hl
        unfold Split at hl
        rw [List.mem_map] at hl
        obtain ⟨seg, hseg, rfl⟩ := hl
        exact splitChars_no_sep_mem p.data seg hseg
    · rintro ⟨lines, hne, hline, hp, hmem⟩
      rw [hsplit lines hne hline hp]
      exact hmem
  · intro lines hne hline hp
    rw [newBlocklist_contains_iff, hsplit lines hne hline hp]

/-! ## ExtractLinks -/

theorem attrLoop_eq {σ : Type} (f : σ → String → String → σ) (key baseURL : String)
    (attr : List Attribute) (s : σ) :
    attrLoop f key baseURL attr s =
      (attrValues key attr).foldl (fun acc link => f acc link baseURL) s := by
  induction attr generalizing s with
  | nil => rfl
  | cons a rest ih =>
    unfold attrLoop
    rw [ih]
    by_cases h : a.Key = key <;> simp [attrValues, List.filter_cons, h]

theorem node_contribution_eq {σ : Type} (f : σ → String → String → σ) (t : NodeType)
    (data : String) (attr : List Attribute) (children : List Node) (baseURL : String) (s : σ) :
    (if t = NodeType.ElementNode then
        if data = "a" then attrLoop f "href" baseURL attr s
        else if data = "iframe" then attrLoop f "src" baseURL attr s
        else if data = "frame" then attrLoop f "src" baseURL attr s
        else if data = "script" then attrLoop f "src" baseURL attr s
        else if data = "link" then attrLoop f "href" baseURL attr s
        else s
      else s) =
      (contribution (Node.mk t data attr children)).foldl
        (fun acc link => f acc link baseURL) s := by
  unfold contribution
  by_cases ht : t = NodeType.ElementNode
  · simp only [ht, if_true, true_and]
    by_cases h1 : data = "a"
    · simp [h1, attrLoop_eq]
    · by_cases h2 : data = "iframe"
      · subst h2
        simp [attrLoop_eq]
      · by_cases h3 : data = "frame"
        · subst h3
          simp [attrLoop_eq]
        · by_cases h4 : data = "script"
          · subst h4
            simp [attrLoop_eq]
          · by_cases h5 : data = "link"
            · subst h5
              simp [attrLoop_eq]
            · simp [h1, h2, h3, h4, h5]
  · simp [ht]

theorem ExtractLinksChildren_eq_foldl_of_le {σ : Type} (f : σ → String → String → σ)
    (baseURL : String) (k : Nat) :
    ∀ (cs : List Node) (s : σ), nodeCountList cs ≤ k →
      ExtractLinksChildren f cs baseURL s =
        (preorderList cs).foldl
          (fun acc m => (contribution m).foldl (fun a link => f a link baseURL) acc) s := by
  induction k with
  | zero =>
    intro cs s hk
    cases cs with
    | nil => rw [ExtractLinksChildren, preorderList, List.foldl_nil]
    | cons c rest =>
      cases c with
      | mk t data attr children =>
        rw [nodeCountList, nodeCount] at hk
        omega
  | succ k ih =>
    intro cs s hk
    cases cs with
    | nil => rw [ExtractLinksChildren, preorderList, List.foldl_nil]
    | cons c rest =>
      cases c with
      | mk t data attr children =>
        rw [nodeCountList, nodeCount] at hk
        rw [ExtractLinksChildren, ExtractLinks, preorderList, preorder, List.cons_append,
          List.foldl_cons, List.foldl_append, node_contribution_eq f t data attr children,
          ih children _ (by omega), ih rest _ (by omega)]

theorem ExtractLinks_eq_foldl {σ : Type} (f : σ → String → String → σ) (baseURL : String)
    (n : Node) (s : σ) :
    ExtractLinks f n baseURL s =
      (preorder n).foldl
        (fun acc m => (contribution m).foldl (fun a link => f a link baseURL) acc) s := by
  have h := ExtractLinksChildren_eq_foldl_of_le f baseURL (nodeCountList [n]) [n] s (le_refl _)
  simpa [ExtractLinksChildren, preorderList] using h

theorem preorderList_length_of_le (k : Nat) :
    ∀ cs : List Node, nodeCountList cs ≤ k → (preorderList cs).length = nodeCountList cs := by
  induction k with
  | zero =>
    intro cs hk
    cases cs with
    | nil => rw [preorderList, nodeCountList, List.length_nil]
    | cons c rest =>
      cases c with
      | mk t data attr children =>
        rw [nodeCountList, nodeCount] at hk
        omega
  | succ k ih =>
    intro cs hk
    cases cs with
    | nil => rw [preorderList, nodeCountList, List.length_nil]
    | cons c rest =>
      cases c with
      | mk t data attr children =>
        rw [nodeCountList, nodeCount] at hk
        rw [preorderList, preorder, nodeCountList, nodeCount, List.cons_append,
          List.length_cons, List.length_append, ih children (by omega), ih rest (by omega)]
        omega

theorem preorder_length (n : Node) : (preorder n).length = nodeCount n := by
  have h := preorderList_length_of_le (nodeCountList [n]) [n] (le_refl _)
  simpa [preorderList, nodeCountList] using h

theorem foldl_flatMap {α β γ : Type} (g : γ → β → γ) (c : α → List β) (l : List α) (s : γ) :
    l.foldl (fun acc m => (c m).foldl g acc) s = (l.flatMap c).foldl g s := by
  induction l generalizing s with
  | nil => rfl
  | cons a l ih => simp [List.flatMap_cons, List.foldl_append, ih]

theorem foldl_log (base : String) (links : List String) (acc : List (String × String)) :
    links.foldl (fun a link => a ++ [(link, base)]) acc =
      acc ++ links.map (fun link => (link, base)) := by
  induction links generalizing acc with
  | nil => simp
  | cons l links ih => simp [ih]

theorem linkCalls_eq (n : Node) (baseURL : String) :
    linkCalls n baseURL =
      ((preorder n).flatMap contribution).map (fun link => (link, baseURL)) := by
  unfold linkCalls
  rw [ExtractLinks_eq_foldl, foldl_flatMap (fun a link => a ++ [(link, baseURL)]), foldl_log]
  simp

/-- C9: `ExtractLinks` is total; on every tree, base URL and state its effect is that of
one pass over the nodes in pre-order (a node before its children, children first to last),
each of the `nodeCount` nodes once, calling `AddLink` for the contribution of each node:
the `href` values of an element `a` or `link`, the `src` values of an element `iframe`,
`frame` or `script`, in attribute order, nothing for any other node. The strings are passed
as they stand, always with the same base URL. -/
theorem ExtractLinks_preorder {σ : Type} (AddLink : σ → String → String → σ) (n : Node)
    (baseURL : String) (s : σ) :
    ExtractLinks AddLink n baseURL s =
      (preorder n).foldl
        (fun acc m => (contribution m).foldl (fun a link => AddLink a link baseURL) acc) s ∧
    ExtractLinks AddLink n baseURL s =
      ((preorder n).flatMap contribution).foldl (fun a link => AddLink a link baseURL) s ∧
    linkCalls n baseURL =
      ((preorder n).flatMap contribution).map (fun link => (link, baseURL)) ∧
    (preorder n).length = nodeCount n := by
  refine ⟨ExtractLinks_eq_foldl AddLink baseURL n s, ?_, linkCalls_eq n baseURL,
    preorder_length n⟩
  rw [ExtractLinks_eq_foldl, foldl_flatMap]

/-! ## AddLink -/

theorem StrSet_keys_insert_of_not_mem (m : StrSet) (k : String) (h : k ∉ m.keys) :
    (m.insert k).keys = m.keys ++ [k] := by
  simp [StrSet.insert, h]

theorem AddLink_eq (lib : UrlLib) (lc : LinkCollector) (link baseURL : String)
    (parsedLink parsedBase : lib.URL) (hlink : lib.Parse link = some parsedLink)
    (hhost : lc.blocklist.contains (lib.Host parsedLink) = false)
    (hbase : lib.Parse baseURL = some parsedBase) :
    AddLink lib lc link baseURL =
      if lc.VisitedLinks.contains (lib.UrlString (resolvedLink lib parsedBase parsedLink)) then
        some (lc, [])
      else
        some ({ lc with
                VisitedLinks :=
                  lc.VisitedLinks.insert (lib.UrlString (resolvedLink lib parsedBase parsedLink))
                DomainList :=
                  lc.DomainList.insert (lib.Host (resolvedLink lib parsedBase parsedLink))
                Wg := lc.Wg + 1 },
              [lib.UrlString (resolvedLink lib parsedBase parsedLink)]) := by
  unfold AddLink resolvedLink
  simp only [hlink, hhost, hbase, Bool.false_eq_true, if_false]
  by_cases h : lib.Host parsedLink = "" <;> simp only [h, if_true, if_false]

/-- C5: for a link that parses with a host that is not blocklisted, and a base URL that
parses, let `s` be the string of the link after resolution. If `s` is not visited, `AddLink`
adds exactly `s` to `VisitedLinks`, adds the host of the resolved link to `DomainList`,
raises the counter by one, launches one goroutine, for `s`, and changes nothing else; if `s`
is visited, it changes nothing and launches nothing. Two calls with the same link and base
launch what the first call launches, at most one goroutine and exactly one when `s` was not
visited, and the second call changes nothing. -/
theorem AddLink_records_and_launches_once (lib : UrlLib) (lc : LinkCollector)
    (link baseURL : String) (parsedLink parsedBase : lib.URL)
    (hlink : lib.Parse link = some parsedLink)
    (hhost : lc.blocklist.contains (lib.Host parsedLink) = false)
    (hbase : lib.Parse baseURL = some parsedBase) :
    (lib.UrlString (resolvedLink lib parsedBase parsedLink) ∉ lc.VisitedLinks.keys →
      ∃ lc1, AddLink lib lc link baseURL =
          some (lc1, [lib.UrlString (resolvedLink lib parsedBase parsedLink)]) ∧
        lc1.VisitedLinks.keys =
          lc.VisitedLinks.keys ++ [lib.UrlString (resolvedLink lib parsedBase parsedLink)] ∧
        (∀ d, d ∈ lc1.DomainList.keys ↔
          d = lib.Host (resolvedLink lib parsedBase parsedLink) ∨ d ∈ lc.DomainList.keys) ∧
        lc1.Wg = lc.Wg + 1 ∧
        lc1.blocklist = lc.blocklist ∧ lc1.semSize = lc.semSize ∧ lc1.semCur = lc.semCur) ∧
    (lib.UrlString (resolvedLink lib parsedBase parsedLink) ∈ lc.VisitedLinks.keys →
      AddLink lib lc link baseURL = some (lc, [])) ∧
    (∃ lc1 launched, AddLink lib lc link baseURL = some (lc1, launched) ∧
      AddLink lib lc1 link baseURL = some (lc1, []) ∧
      launched.length ≤ 1 ∧
      (lib.UrlString (resolvedLink lib parsedBase parsedLink) ∉ lc.VisitedLinks.keys →
        launched = [lib.UrlString (resolvedLink lib parsedBase parsedLink)])) := by
  have heq := AddLink_eq lib lc link baseURL parsedLink parsedBase hlink hhost hbase
  have hfresh : lib.UrlString (resolvedLink lib parsedBase parsedLink) ∉ lc.VisitedLinks.keys →
      AddLink lib lc link baseURL =
        some ({ lc with
                VisitedLinks :=
                  lc.VisitedLinks.insert (lib.UrlString (resolvedLink lib parsedBase parsedLink))
                DomainList :=
                  lc.DomainList.insert (lib.Host (resolvedLink lib parsedBase parsedLink))
                Wg := lc.Wg + 1 },
              [lib.UrlString (resolvedLink lib parsedBase parsedLink)]) := by
    intro hs
    rw [heq, (StrSet_contains_false_iff _ _).2 hs]
    simp
  have hseen : lib.UrlString (resolvedLink lib parsedBase parsedLink) ∈ lc.VisitedLinks.keys →
      AddLink lib lc link baseURL = some (lc, []) := by
    intro hs
    rw [heq, (StrSet_contains_iff _ _).2 hs]
    simp
  refine ⟨?_, hseen, ?_⟩
  · intro hs
    refine ⟨_, hfresh hs, ?_, ?_, rfl, rfl, rfl, rfl⟩
    · exact StrSet_keys_insert_of_not_mem _ _ hs
    · intro d
      exact StrSet_mem_insert _ _ _
  · by_cases hs : lib.UrlString (resolvedLink lib parsedBase parsedLink) ∈ lc.VisitedLinks.keys
    · exact ⟨lc, [], hseen hs, hseen hs, by simp, fun h => absurd hs h⟩
    · refine ⟨_, _, hfresh hs, ?_, by simp, fun _ => rfl⟩
      have h2 := AddLink_eq lib
        { lc with
          VisitedLinks :=
            lc.VisitedLinks.insert (lib.UrlString (resolvedLink lib parsedBase parsedLink))
          DomainList :=
            lc.DomainList.insert (lib.Host (resolvedLink lib parsedBase parsedLink))
          Wg := lc.Wg + 1 }
        link baseURL parsedLink parsedBase hlink hhost hbase
      rw [h2]
      have hin : lib.UrlString (resolvedLink lib parsedBase parsedLink) ∈
          (lc.VisitedLinks.insert
            (lib.UrlString (resolvedLink lib parsedBase parsedLink))).keys :=
        (StrSet_mem_insert _ _ _).2 (Or.inl rfl)
      simp only [(StrSet_contains_iff _ _).2 hin, if_true]

/-! ## Instances -/

/-- C6 at `sampleCollector`: "ads.example.com" and "google.com" are in `badDomains`, the
latter although it is blocklisted; "downloads.yahoo.com" and "a.test" are not. -/
theorem ContainsAny_and_badDomains_witness :
    sampleOrder.Perm sampleCollector.DomainList.keys ∧
    (SaveDomainList sampleCollector "visited_domains.json" sampleOrder allOk).badDomains =
      ["google.com", "ads.example.com"] ∧
    ("ads.example.com" ∈
        (SaveDomainList sampleCollector "visited_domains.json" sampleOrder allOk).badDomains ↔
      "ads.example.com" ∈ sampleCollector.DomainList.keys ∧
        (∃ k ∈ anyof, IsSubstring k "ads.example.com") ∧
          ¬ IsSubstring "downloads" "ads.example.com") :=
  ⟨List.reverse_perm _, by decide,
    (ContainsAny_and_badDomains "ads.example.com" anyof sampleCollector "visited_domains.json"
      sampleOrder allOk (List.reverse_perm _)).2.2.1⟩

/-- C7 at `sampleCollector`: the serialised slice is the domain set without "google.com". -/
theorem SaveDomainList_domains_witness :
    sampleOrder.Perm sampleCollector.DomainList.keys ∧
    (SaveDomainList sampleCollector "visited_domains.json" sampleOrder allOk).domains =
      ["downloads.yahoo.com", "ads.example.com", "a.test"] ∧
    (∀ d, d ∈ (SaveDomainList sampleCollector "visited_domains.json" sampleOrder allOk).domains ↔
      d ∈ sampleCollector.DomainList.keys ∧ sampleCollector.blocklist.contains d = false) :=
  ⟨List.reverse_perm _, by decide,
    (SaveDomainList_domains sampleCollector "visited_domains.json" sampleOrder allOk
      (List.reverse_perm _)).1⟩

/-- C5 at the link "/page2" on the page "https://a.test/index.html", in a fresh collector:
the first call records "https://a.test/page2" and launches its goroutine, the second call
changes nothing. -/
theorem AddLink_records_and_launches_once_witness :
    goUrl.Parse "/page2" = some ⟨"", "", "", "/page2", false⟩ ∧
    (NewLinkCollector 5 "blocked.test").blocklist.contains "" = false ∧
    goUrl.Parse "https://a.test/index.html" =
      some ⟨"https", "", "a.test", "/index.html", false⟩ ∧
    goUrl.UrlString (resolvedLink goUrl ⟨"https", "", "a.test", "/index.html", false⟩
      ⟨"", "", "", "/page2", false⟩) = "https://a.test/page2" ∧
    ∃ lc1 launched,
      AddLink goUrl (NewLinkCollector 5 "blocked.test") "/page2" "https://a.test/index.html" =
        some (lc1, launched) ∧
      AddLink goUrl lc1 "/page2" "https://a.test/index.html" = some (lc1, []) ∧
      launched.length ≤ 1 ∧
      (goUrl.UrlString (resolvedLink goUrl ⟨"https", "", "a.test", "/index.html", false⟩
          ⟨"", "", "", "/page2", false⟩) ∉
          (NewLinkCollector 5 "blocked.test").VisitedLinks.keys →
        launched = [goUrl.UrlString (resolvedLink goUrl
          ⟨"https", "", "a.test", "/index.html", false⟩ ⟨"", "", "", "/page2", false⟩)]) :=
  ⟨by rfl, by decide, by rfl, by rfl,
    (AddLink_records_and_launches_once goUrl (NewLinkCollector 5 "blocked.test") "/page2"
      "https://a.test/index.html" ⟨"", "", "", "/page2", false⟩
      ⟨"https", "", "a.test", "/index.html", false⟩ (by rfl) (by decide) (by rfl)).2.2⟩


/-! ## Crawls -/

theorem map_set_same {α β : Type} (f : α → β) (l : List α) (i : Nat) (t x : α)
    (ht : l[i]? = some t) (hf : f x = f t) : (l.set i x).map f = l.map f := by
  induction l generalizing i with
  | nil => rfl
  | cons a l ih =>
    cases i with
    | zero =>
      simp only [List.getElem?_cons_zero, Option.some.injEq] at ht
      simp [List.set, hf, ht]
    | succ i =>
      simp only [List.getElem?_cons_succ] at ht
      simp [List.set, ih i ht]

theorem filter_length_set {α : Type} (p : α → Bool) (l : List α) (i : Nat) (t x : α)
    (ht : l[i]? = some t) :
    ((l.set i x).filter p).length + (if p t then 1 else 0) =
      (l.filter p).length + (if p x then 1 else 0) := by
  induction l generalizing i with
  | nil => simp at ht
  | cons a l ih =>
    cases i with
    | zero =>
      simp only [List.getElem?_cons_zero, Option.some.injEq] at ht
      subst ht
      simp only [List.set, List.filter_cons]
      by_cases h1 : p a = true <;> by_cases h2 : p x = true <;> simp [h1, h2]
    | succ i =>
      simp only [List.getElem?_cons_succ] at ht
      have := ih i ht
      simp only [List.set, List.filter_cons]
      by_cases h1 : p a = true <;> simp [h1] <;> omega

theorem forall_mem_set {α : Type} (P : α → Prop) (l : List α) (i : Nat) (x : α)
    (hl : ∀ t ∈ l, P t) (hx : P x) : ∀ t ∈ l.set i x, P t := by
  intro t ht
  rcases List.mem_or_eq_of_mem_set ht with h | h
  · exact hl t h
  · exact h ▸ hx

theorem AddLink_cases (lib : UrlLib) (lc lc1 : LinkCollector) (link baseURL : String)
    (launched : List String) (h : AddLink lib lc link baseURL = some (lc1, launched)) :
    (lc1 = lc ∧ launched = []) ∨
    ∃ parsedLink r, lib.Parse link = some parsedLink ∧
      lc.blocklist.contains (lib.Host parsedLink) = false ∧
      ((lib.Host parsedLink ≠ "" ∧ r = parsedLink) ∨
        (lib.Host parsedLink = "" ∧
          ((∃ parsedBase, lib.Parse baseURL = some parsedBase ∧
              r = lib.ResolveReference parsedBase parsedLink) ∨
            (lib.Parse baseURL = none ∧ lib.ResolveReferenceNil parsedLink = some r)))) ∧
      lib.UrlString r ∉ lc.VisitedLinks.keys ∧
      lc1 = { lc with
              VisitedLinks := lc.VisitedLinks.insert (lib.UrlString r)
              DomainList := lc.DomainList.insert (lib.Host r)
              Wg := lc.Wg + 1 } ∧
      launched = [lib.UrlString r] := by
  unfold AddLink at h
  cases hp : lib.Parse link with
  | none =>
    simp only [hp, Option.some.injEq, Prod.mk.injEq] at h
    exact Or.inl ⟨h.1.symm, h.2.symm⟩
  | some parsedLink =>
    simp only [hp] at h
    by_cases hb : lc.blocklist.contains (lib.Host parsedLink) = true
    · simp only [hb, if_true, Option.some.injEq, Prod.mk.injEq] at h
      exact Or.inl ⟨h.1.symm, h.2.symm⟩
    · have hb2 : lc.blocklist.contains (lib.Host parsedLink) = false := by simpa using hb
      simp only [hb2, Bool.false_eq_true, if_false] at h
      have key : ∀ r : lib.URL,
          (if lc.VisitedLinks.contains (lib.UrlString r) = true then some (lc, [])
            else some ({ lc with
                          VisitedLinks := lc.VisitedLinks.insert (lib.UrlString r)
                          DomainList := lc.DomainList.insert (lib.Host r)
                          Wg := lc.Wg + 1 }, [lib.UrlString r])) = some (lc1, launched) →
          (lc1 = lc ∧ launched = []) ∨
            (lib.UrlString r ∉ lc.VisitedLinks.keys ∧
              lc1 = { lc with
                      VisitedLinks := lc.VisitedLinks.insert (lib.UrlString r)
                      DomainList := lc.DomainList.insert (lib.Host r)
                      Wg := lc.Wg + 1 } ∧
              launched = [lib.UrlString r]) := by
        intro r hr
        by_cases hv : lc.VisitedLinks.contains (lib.UrlString r) = true
        · simp only [hv, if_true, Option.some.injEq, Prod.mk.injEq] at hr
          exact Or.inl ⟨hr.1.symm, hr.2.symm⟩
        · simp only [hv, Bool.false_eq_true, if_false, Option.some.injEq, Prod.mk.injEq] at hr
          refine Or.inr ⟨?_, hr.1.symm, hr.2.symm⟩
          intro hmem
          exact hv ((StrSet_contains_iff _ _).2 hmem)
      by_cases hh : lib.Host parsedLink = ""
      · simp only [hh, if_true] at h
        cases hbase : lib.Parse baseURL with
        | some parsedBase =>
          simp only [hbase] at h
          rcases key _ h with h1 | ⟨h1, h2, h3⟩
          · exact Or.inl h1
          · exact Or.inr ⟨parsedLink, _, rfl, hb2,
              Or.inr ⟨hh, Or.inl ⟨parsedBase, rfl, rfl⟩⟩, h1, h2, h3⟩
        | none =>
          simp only [hbase] at h
          cases hnil : lib.ResolveReferenceNil parsedLink with
          | none => simp [hnil] at h
          | some r =>
            simp only [hnil] at h
            rcases key _ h with h1 | ⟨h1, h2, h3⟩
            · exact Or.inl h1
            · exact Or.inr ⟨parsedLink, r, rfl, hb2,
                Or.inr ⟨hh, Or.inr ⟨rfl, hnil⟩⟩, h1, h2, h3⟩
      · simp only [hh, if_false] at h
        rcases key _ h with h1 | ⟨h1, h2, h3⟩
        · exact Or.inl h1
        · exact Or.inr ⟨parsedLink, parsedLink, rfl, hb2, Or.inl ⟨hh, rfl⟩, h1, h2, h3⟩

theorem deferred_eq (lc lc1 : LinkCollector) (h : deferred lc = some lc1) :
    lc1 = { lc with semCur := lc.semCur - 1, Wg := lc.Wg - 1 } := by
  unfold deferred semRelease WgDone at h
  by_cases h1 : lc.semCur = 0
  · simp [h1] at h
  · simp only [h1, if_false, Option.some_bind] at h
    by_cases h2 : lc.Wg - 1 < 0
    · simp [h2] at h
    · simp only [h2, if_false, Option.some.injEq] at h
      exact h.symm

theorem filter_map_launched (p : Task → Bool) (extra : List String)
    (hp : ∀ u, p (Task.launched u) = true) :
    ((extra.map Task.launched).filter p).length = extra.length := by
  induction extra with
  | nil => rfl
  | cons a extra ih => simp [List.filter_cons, hp, ih]

theorem filter_map_launched_false (p : Task → Bool) (extra : List String)
    (hp : ∀ u, p (Task.launched u) = false) :
    ((extra.map Task.launched).filter p).length = 0 := by
  induction extra with
  | nil => rfl
  | cons a extra ih => simp [List.filter_cons, hp, ih]

theorem crawlInv_update (lib : UrlLib) (bl : blocklist) (seed : String) (w : World)
    (hinv : CrawlInv lib bl seed w) (i : Nat) (t x : Task) (hti : w.tasks[i]? = some t)
    (hfin : t.finished = false) (hurl : x.baseURL = t.baseURL) (hx : TaskOk lib bl x)
    (lc1 : LinkCollector) (fetched1 : List String) (extra : List String)
    (hbl : lc1.blocklist = bl)
    (hvis : RenderKeepsHost lib → ∀ s ∈ lc1.VisitedLinks.keys,
      ∀ v, lib.Parse s = some v → bl.contains (lib.Host v) = false)
    (hfet : ∀ s ∈ fetched1, ∃ u, lib.Parse s = some u ∧ bl.contains (lib.Host u) = false)
    (hkeys : lc1.VisitedLinks.keys = w.lc.VisitedLinks.keys ++ extra)
    (hwg : lc1.Wg + (if (x.finished && !hostBlocked lib bl x.baseURL) = true then 1 else 0) =
      w.lc.Wg + extra.length) :
    CrawlInv lib bl seed
      { lc := lc1, tasks := w.tasks.set i x ++ extra.map Task.launched, fetched := fetched1 } := by
  refine ⟨hbl, hvis, hfet, ?_, ?_, ?_⟩
  · intro t1 ht1
    rcases List.mem_append.1 ht1 with h | h
    · exact forall_mem_set _ _ _ _ hinv.tasks hx t1 h
    · rw [List.mem_map] at h
      obtain ⟨u, _, rfl⟩ := h
      trivial
  · have h1 := hinv.launches
    unfold World.launches at h1 ⊢
    simp only [List.map_append, List.map_map]
    rw [map_set_same Task.baseURL w.tasks i t x hti hurl, h1, hkeys]
    have : (Task.baseURL ∘ Task.launched) = id := by
      funext u
      rfl
    rw [this, List.map_id]
    rfl
  · have hc := hinv.counter
    have hb0 := hinv.blocklist_eq
    unfold World.unfinished World.skipped at hc ⊢
    simp only [List.filter_append, List.length_append, hbl]
    rw [hb0] at hc
    have e1 := filter_length_set (fun t => !t.finished) w.tasks i t x hti
    have e2 := filter_length_set
      (fun t => t.finished && hostBlocked lib bl t.baseURL) w.tasks i t x hti
    have e3 := filter_map_launched (fun t => !t.finished) extra (fun u => rfl)
    have e4 := filter_map_launched_false
      (fun t => t.finished && hostBlocked lib bl t.baseURL) extra (fun u => rfl)
    simp only [hfin, Bool.not_false, if_true, Bool.false_and, Bool.false_eq_true,
      if_false, Nat.add_zero] at e1 e2
    rw [e3, e4]
    cases hxf : x.finished <;> cases hxb : hostBlocked lib bl x.baseURL <;>
      simp only [hxf, hxb, Bool.not_false, Bool.not_true, Bool.and_true, Bool.and_false,
        Bool.true_and, Bool.false_and, Bool.false_eq_true, if_true, if_false] at e1 e2 hwg <;>
      omega

theorem TaskOk_parse (lib : UrlLib) (bl : blocklist) (baseURL : String)
    (h : hostBlocked lib bl baseURL = false ∧ (lib.Parse baseURL).isSome) :
    ∃ u, lib.Parse baseURL = some u ∧ bl.contains (lib.Host u) = false := by
  obtain ⟨h1, h2⟩ := h
  cases hp : lib.Parse baseURL with
  | none => simp [hp] at h2
  | some u =>
    refine ⟨u, rfl, ?_⟩
    simpa [hostBlocked, hp] using h1

theorem hostPresent_parse (lib : UrlLib) (baseURL : String) (u : lib.URL)
    (hp : lib.Parse baseURL = some u) (h : hostPresent lib baseURL = true) :
    lib.Host u ≠ "" := by
  simpa [hostPresent, hp] using h

theorem CollectLinks_facts (lib : UrlLib) (bl : blocklist) (lc : LinkCollector)
    (resp : Option Node) (t : Task) (p : Progress) (hbl : lc.blocklist = bl)
    (hvis : RenderKeepsHost lib → ∀ s ∈ lc.VisitedLinks.keys,
      ∀ v, lib.Parse s = some v → bl.contains (lib.Host v) = false)
    (htok : TaskOk lib bl t) (h : CollectLinks lib lc resp t = some p) :
    t.finished = false ∧ p.task.baseURL = t.baseURL ∧ TaskOk lib bl p.task ∧
    p.lc.blocklist = bl ∧
    (RenderKeepsHost lib → ∀ s ∈ p.lc.VisitedLinks.keys,
      ∀ v, lib.Parse s = some v → bl.contains (lib.Host v) = false) ∧
    (∀ s ∈ p.fetched, ∃ u, lib.Parse s = some u ∧ bl.contains (lib.Host u) = false) ∧
    p.lc.VisitedLinks.keys = lc.VisitedLinks.keys ++ p.launched ∧
    p.lc.Wg + (if (p.task.finished && !hostBlocked lib bl p.task.baseURL) = true then 1 else 0) =
      lc.Wg + p.launched.length := by
  have hnofetch : ∀ s ∈ ([] : List String),
      ∃ u, lib.Parse s = some u ∧ bl.contains (lib.Host u) = false := by
    intro s hs
    simp at hs
  cases t with
  | launched baseURL =>
    simp only [CollectLinks] at h
    cases hp : lib.Parse baseURL with
    | none => simp [hp] at h
    | some u =>
      simp only [hp] at h
      by_cases hb : lc.blocklist.contains (lib.Host u) = true
      · simp only [hb, if_true, Option.some.injEq] at h
        subst h
        have hB : hostBlocked lib bl baseURL = true := by
          simp [hostBlocked, hp, ← hbl, hb]
        exact ⟨rfl, rfl, trivial, hbl, hvis, hnofetch, by simp,
          by simp [Task.finished, Task.baseURL, hB]⟩
      · have hb2 : lc.blocklist.contains (lib.Host u) = false := by simpa using hb
        simp only [hb2, Bool.false_eq_true, if_false, Option.some.injEq] at h
        subst h
        have hB : hostBlocked lib bl baseURL = false := by
          simp [hostBlocked, hp, ← hbl, hb2]
        exact ⟨rfl, rfl, ⟨hB, by simp [hp]⟩, hbl, hvis, hnofetch, by simp,
          by simp [Task.finished]⟩
  | admission baseURL =>
    simp only [CollectLinks] at h
    by_cases hs : lc.semCur + 1 ≤ lc.semSize
    · simp only [hs, if_true, Option.some.injEq] at h
      subst h
      exact ⟨rfl, rfl, htok, hbl, hvis, hnofetch, by simp, by simp [Task.finished]⟩
    · simp [hs] at h
  | fetching baseURL =>
    have hfet : ∀ s ∈ [baseURL],
        ∃ u, lib.Parse s = some u ∧ bl.contains (lib.Host u) = false := by
      intro s hs
      rw [List.mem_singleton] at hs
      subst hs
      exact TaskOk_parse lib bl _ htok
    cases hg : httpGet lib baseURL resp with
    | none =>
      simp only [CollectLinks, hg] at h
      cases hd : deferred lc with
      | none => simp [hd] at h
      | some lc1 =>
        simp only [hd, Option.map_some', Option.some.injEq] at h
        subst h
        have hlc := deferred_eq _ _ hd
        subst hlc
        exact ⟨rfl, rfl, trivial, hbl, hvis, hfet, by simp,
          by simp [Task.finished, Task.baseURL, htok.1]⟩
    | some doc =>
      simp only [CollectLinks, hg, Option.some.injEq] at h
      subst h
      have hhost : hostPresent lib baseURL = true := by
        unfold httpGet at hg
        by_cases hh : hostPresent lib baseURL = true
        · exact hh
        · simp [hh] at hg
      have hcalls : ∀ c ∈ linkCalls doc baseURL, c.2 = baseURL := by
        intro c hc
        rw [linkCalls_eq, List.mem_map] at hc
        obtain ⟨l, _, rfl⟩ := hc
        rfl
      exact ⟨rfl, rfl, ⟨htok, hhost, hcalls⟩, hbl, hvis, hfet, by simp,
        by simp [Task.finished]⟩
  | extracting baseURL calls =>
    cases calls with
    | nil =>
      simp only [CollectLinks] at h
      cases hd : deferred lc with
      | none => simp [hd] at h
      | some lc1 =>
        simp only [hd, Option.map_some', Option.some.injEq] at h
        subst h
        have hlc := deferred_eq _ _ hd
        subst hlc
        exact ⟨rfl, rfl, trivial, hbl, hvis, hnofetch, by simp,
          by simp [Task.finished, Task.baseURL, htok.1.1]⟩
    | cons c calls =>
      obtain ⟨link, base⟩ := c
      simp only [CollectLinks] at h
      have hbase : base = baseURL := htok.2.2 (link, base) (List.mem_cons_self _ _)
      subst hbase
      have hrest : TaskOk lib bl (Task.extracting base calls) :=
        ⟨htok.1, htok.2.1, fun c hc => htok.2.2 c (List.mem_cons_of_mem _ hc)⟩
      cases ha : AddLink lib lc link base with
      | none => simp [ha] at h
      | some r =>
        obtain ⟨lc1, launched⟩ := r
        simp only [ha, Option.map_some', Option.some.injEq] at h
        subst h
        rcases AddLink_cases lib lc lc1 link base launched ha with
          ⟨h1, h2⟩ | ⟨parsedLink, r, hpl, hnb, hr, hfresh, h1, h2⟩
        · subst h1 h2
          exact ⟨rfl, rfl, hrest, hbl, hvis, hnofetch, by simp, by simp [Task.finished]⟩
        · subst h1 h2
          obtain ⟨pb, hpb, hpbok⟩ := TaskOk_parse lib bl base htok.1
          have hpbhost : lib.Host pb ≠ "" := hostPresent_parse lib base pb hpb htok.2.1
          rw [hbl] at hnb
          have hrhost : RenderKeepsHost lib → ∀ v, lib.Parse (lib.UrlString r) = some v →
              bl.contains (lib.Host v) = false := by
            intro hround v hv
            rcases hr with ⟨hne, rfl⟩ | ⟨hempty, ⟨pb2, hpb2, rfl⟩ | ⟨hnone, _⟩⟩
            · rw [hround.1 link r v hpl hne hv]
              exact hnb
            · rw [hpb] at hpb2
              cases hpb2
              rcases hround.2 base link pb parsedLink v hpb hpbhost hpl hempty hv with hh | hh
              · rw [hh]
                exact hpbok
              · rw [hh, ← hempty]
                exact hnb
            · rw [hpb] at hnone
              cases hnone
          refine ⟨rfl, rfl, hrest, hbl, ?_, hnofetch,
            StrSet_keys_insert_of_not_mem _ _ hfresh, by simp [Task.finished]⟩
          intro hround s hs v hv
          rcases (StrSet_mem_insert _ _ _).1 hs with h3 | h3
          · subst h3
            exact hrhost hround v hv
          · exact hvis hround s h3 v hv
  | returned baseURL => simp [CollectLinks] at h

theorem crawlInv_step (lib : UrlLib) (bl : blocklist)
    (seed : String) (w w1 : World) (i : Nat) (resp : Option Node)
    (hinv : CrawlInv lib bl seed w) (h : step lib w i resp = some w1) :
    CrawlInv lib bl seed w1 := by
  cases hti : w.tasks[i]? with
  | none => simp [Lloth.step, hti] at h
  | some t =>
    simp only [Lloth.step, hti] at h
    cases hc : CollectLinks lib w.lc resp t with
    | none => simp [hc] at h
    | some p =>
      simp only [hc, Option.map_some', Option.some.injEq] at h
      subst h
      obtain ⟨h1, h2, h3, h4, h5, h6, h7, h8⟩ :=
        CollectLinks_facts lib bl w.lc resp t p hinv.blocklist_eq hinv.visited
          (hinv.tasks t (List.getElem?_mem hti)) hc
      exact crawlInv_update lib bl seed w hinv i t p.task hti h1 h2 h3 p.lc
        (w.fetched ++ p.fetched) p.launched h4 h5
        (by
          intro s hs
          rcases List.mem_append.1 hs with hs1 | hs1
          · exact hinv.fetched s hs1
          · exact h6 s hs1)
        h7 h8

theorem crawlInv_run (lib : UrlLib) (bl : blocklist)
    (seed : String) (sched : Schedule) :
    ∀ w w1 : World, CrawlInv lib bl seed w → run lib w sched = some w1 →
      CrawlInv lib bl seed w1 := by
  induction sched with
  | nil =>
    intro w w1 hinv h
    simp only [Lloth.run, Option.some.injEq] at h
    exact h ▸ hinv
  | cons a sched ih =>
    intro w w1 hinv h
    obtain ⟨i, resp⟩ := a
    simp only [Lloth.run] at h
    cases hs : Lloth.step lib w i resp with
    | none => simp [hs] at h
    | some w2 =>
      simp only [hs, Option.some_bind] at h
      exact ih w2 w1 (crawlInv_step lib bl seed w w2 i resp hinv hs) h

theorem crawlInv_mainStart (lib : UrlLib) (b startURL : String) (parsedURL : lib.URL)
    (hp : lib.Parse startURL = some parsedURL) (w0 : World)
    (h : mainStart lib b startURL = some w0) :
    CrawlInv lib (newBlocklist b) (lib.UrlString parsedURL) w0 := by
  simp only [Lloth.mainStart, hp, Option.some.injEq] at h
  subst h
  refine ⟨rfl, ?_, ?_, ?_, rfl, ?_⟩
  · intro _ s hs
    simp [NewLinkCollector, StrSet.empty] at hs
  · intro s hs
    simp at hs
  · intro t ht
    simp only [List.mem_singleton] at ht
    subst ht
    trivial
  · simp [World.unfinished, World.skipped, NewLinkCollector, Task.finished]

theorem crawlInv_reachable (lib : UrlLib) (b startURL : String)
    (w : World) (hreach : Reachable lib b startURL w) :
    ∃ parsedURL, lib.Parse startURL = some parsedURL ∧
      CrawlInv lib (newBlocklist b) (lib.UrlString parsedURL) w := by
  obtain ⟨w0, sched, h0, hrun⟩ := hreach
  cases hp : lib.Parse startURL with
  | none => simp [Lloth.mainStart, hp] at h0
  | some parsedURL =>
    exact ⟨parsedURL, rfl,
      crawlInv_run lib _ _ sched w0 w (crawlInv_mainStart lib b startURL parsedURL hp w0 h0)
        hrun⟩

/-- Every state of a crawl: the launches are the seed's followed by the visited links in the
order they were recorded, so the launches after the first are pairwise different; and the
counter is the number of goroutines that have not returned plus the number of those that
returned on the blocklist test. -/
theorem reachable_launches_and_counter (lib : UrlLib) (b startURL : String) (w : World)
    (hreach : Reachable lib b startURL w) :
    (∃ parsedURL, lib.Parse startURL = some parsedURL ∧
      w.launches = lib.UrlString parsedURL :: w.lc.VisitedLinks.keys) ∧
    w.launches.tail.Nodup ∧
    w.lc.Wg = (w.unfinished : Int) + (w.skipped lib : Int) ∧
    0 ≤ w.lc.Wg := by
  obtain ⟨parsedURL, hp, hinv⟩ := crawlInv_reachable lib b startURL w hreach
  refine ⟨⟨parsedURL, hp, hinv.launches⟩, ?_, hinv.counter, ?_⟩
  · rw [hinv.launches]
    exact w.lc.VisitedLinks.nodup
  · rw [hinv.counter]
    omega

/-- A goroutine whose argument has a blocklisted host returns in its first step, and that
step changes nothing but the goroutine: the counter keeps its value, nothing is fetched. -/
theorem CollectLinks_blocked (lib : UrlLib) (lc : LinkCollector) (resp : Option Node)
    (baseURL : String) (u : lib.URL) (hp : lib.Parse baseURL = some u)
    (hb : lc.blocklist.contains (lib.Host u) = true) :
    CollectLinks lib lc resp (Task.launched baseURL) =
      some { lc := lc, task := Task.returned baseURL, launched := [], fetched := [] } := by
  simp only [CollectLinks, hp, hb, if_true]

/-! ## The URL model renders what it parses -/

theorem toLower_of_not_upper (c : Char) (h : c.isUpper = false) : c.toLower = c := by
  unfold Char.toLower
  simp only [Char.isUpper, Bool.and_eq_false_iff, decide_eq_false_iff_not, ge_iff_le] at h
  have : ¬ (c.toNat ≥ 65 ∧ c.toNat ≤ 90) := by
    rintro ⟨h1, h2⟩
    rcases h with h | h
    · apply h
      show (65 : UInt32).toNat ≤ c.val.toNat
      exact h1
    · apply h
      show c.val.toNat ≤ (90 : UInt32).toNat
      exact h2
  simp [this]

theorem isLower_toLower_of_upper (c : Char) (h : c.isUpper = true) :
    c.toLower.isLower = true := by
  unfold Char.toLower
  simp only [Char.isUpper, Bool.and_eq_true, decide_eq_true_eq, ge_iff_le] at h
  have h1 : 65 ≤ c.toNat := h.1
  have h2 : c.toNat ≤ 90 := h.2
  simp only [h1, h2, ge_iff_le, and_self, ↓reduceIte]
  have hv : (c.toNat + 32).isValidChar := by
    left
    omega
  have : Char.ofNat (c.toNat + 32) = Char.ofNatAux (c.toNat + 32) hv := by
    simp [Char.ofNat, hv]
  rw [this]
  simp only [Char.isLower, Char.ofNatAux, Bool.and_eq_true, decide_eq_true_eq, ge_iff_le]
  constructor
  · show (97 : UInt32).toNat ≤ _
    simp [UInt32.toNat]
    omega
  · show _ ≤ (122 : UInt32).toNat
    simp [UInt32.toNat]
    omega

theorem isAlpha_toLower (c : Char) (h : c.isAlpha = true) : c.toLower.isAlpha = true := by
  cases hu : c.isUpper with
  | false => rw [toLower_of_not_upper c hu]; exact h
  | true =>
    have := isLower_toLower_of_upper c hu
    simp [Char.isAlpha, this]

theorem schemeChar_toLower (c : Char) (h : schemeChar c = true) :
    schemeChar c.toLower = true := by
  cases hu : c.isUpper with
  | false => rw [toLower_of_not_upper c hu]; exact h
  | true =>
    have := isLower_toLower_of_upper c hu
    simp [schemeChar, Char.isAlpha, this]

theorem validScheme_map_toLower (sch : List Char) (h : validScheme sch) :
    validScheme (sch.map Char.toLower) := by
  cases sch with
  | nil => exact h
  | cons c t =>
    refine ⟨isAlpha_toLower c h.1, ?_⟩
    intro x hx
    rw [List.mem_map] at hx
    obtain ⟨y, hy, rfl⟩ := hx
    exact schemeChar_toLower y (h.2 y hy)

theorem validScheme_append (seen : List Char) (c : Char) (h : seen = [] ∨ validScheme seen)
    (hc : schemeChar c = true) (ha : seen = [] → c.isAlpha = true) :
    validScheme (seen ++ [c]) := by
  cases seen with
  | nil => exact ⟨ha rfl, by simp⟩
  | cons a t =>
    rcases h with h | h
    · cases h
    · refine ⟨h.1, ?_⟩
      intro x hx
      rcases List.mem_append.1 hx with hx | hx
      · exact h.2 x hx
      · rw [List.mem_singleton] at hx
        exact hx ▸ hc

theorem getScheme_valid (l : List Char) :
    ∀ (seen sch rest : List Char), (seen = [] ∨ validScheme seen) →
      getScheme seen l = some (sch, rest) → sch = [] ∨ validScheme sch := by
  induction l with
  | nil =>
    intro seen sch rest _ h
    simp only [getScheme, Option.some.injEq, Prod.mk.injEq] at h
    exact Or.inl h.1.symm
  | cons c cs ih =>
    intro seen sch rest hseen h
    unfold getScheme at h
    by_cases h1 : c.isAlpha = true
    · simp only [h1, if_true] at h
      exact ih _ sch rest
        (Or.inr (validScheme_append seen c hseen (by simp [schemeChar, h1]) (fun _ => h1))) h
    · simp only [h1, Bool.false_eq_true, if_false] at h
      by_cases h2 : (c.isDigit || decide (c = '+') || decide (c = '-') || decide (c = '.')) = true
      · simp only [h2, if_true] at h
        by_cases h3 : seen = []
        · simp only [h3, if_true, Option.some.injEq, Prod.mk.injEq] at h
          exact Or.inl h.1.symm
        · simp only [h3, if_false] at h
          refine ih _ sch rest (Or.inr (validScheme_append seen c hseen ?_ (fun h4 => absurd h4 h3))) h
          simp only [Bool.or_eq_true] at h2
          simp only [schemeChar, Bool.or_eq_true]
          tauto
      · simp only [h2, Bool.false_eq_true, if_false] at h
        by_cases h3 : c = ':'
        · simp only [h3, if_true] at h
          by_cases h4 : seen = []
          · simp [h4] at h
          · simp only [h4, if_false, Option.some.injEq, Prod.mk.injEq] at h
            rcases hseen with hs | hs
            · exact absurd hs h4
            · exact Or.inr (h.1 ▸ hs)
        · simp only [h3, if_false, Option.some.injEq, Prod.mk.injEq] at h
          exact Or.inl h.1.symm

theorem getScheme_append (rest : List Char) (t : List Char) :
    ∀ seen : List Char, (∀ x ∈ t, schemeChar x = true) →
      (seen = [] → ∀ c ∈ t.head?, c.isAlpha = true) → seen ++ t ≠ [] →
      getScheme seen (t ++ ':' :: rest) = some (seen ++ t, rest) := by
  induction t with
  | nil =>
    intro seen _ _ hne
    have hs : seen ≠ [] := by simpa using hne
    have h1 : Char.isAlpha ':' = false := by decide
    have h2 : (Char.isDigit ':' || decide (':' = '+') || decide (':' = '-') ||
        decide (':' = '.')) = false := by decide
    simp [getScheme, h1, h2, hs]
  | cons c t ih =>
    intro seen hall hhead _
    have hc : schemeChar c = true := hall c (List.mem_cons_self _ _)
    have hrest : ∀ x ∈ t, schemeChar x = true := fun x hx => hall x (List.mem_cons_of_mem _ hx)
    have key : getScheme (seen ++ [c]) (t ++ ':' :: rest) = some (seen ++ [c] ++ t, rest) :=
      ih (seen ++ [c]) hrest (fun h => by simp at h) (by simp)
    simp only [List.cons_append, List.append_assoc, List.singleton_append] at key
    rw [List.cons_append, getScheme]
    by_cases h1 : c.isAlpha = true
    · simp only [h1, if_true]
      exact key
    · simp only [h1, Bool.false_eq_true, if_false]
      have hs : seen ≠ [] := by
        intro hs
        exact h1 (hhead hs c (by simp))
      have h2 : (c.isDigit || decide (c = '+') || decide (c = '-') || decide (c = '.')) = true := by
        simp only [schemeChar, Bool.or_eq_true] at hc
        simp only [Bool.or_eq_true]
        tauto
      simp only [h2, if_true, hs, if_false]
      exact key

theorem takeWhile_append_stop (p : Char → Bool) (a r : List Char) (ha : ∀ c ∈ a, p c = true)
    (hr : ∀ c ∈ r.head?, p c = false) :
    (a ++ r).takeWhile p = a ∧ (a ++ r).dropWhile p = r := by
  induction a with
  | nil =>
    cases r with
    | nil => simp
    | cons c r =>
      have : p c = false := hr c (by simp)
      simp [List.takeWhile, List.dropWhile, this]
  | cons c a ih =>
    have hc : p c = true := ha c (List.mem_cons_self _ _)
    have := ih (fun x hx => ha x (List.mem_cons_of_mem _ hx))
    simp [List.takeWhile, List.dropWhile, hc, this.1, this.2]

theorem head_dropWhile (p : Char → Bool) (l : List Char) :
    ∀ c ∈ (l.dropWhile p).head?, p c = false := by
  induction l with
  | nil => simp
  | cons a l ih =>
    intro c hc
    by_cases ha : p a = true
    · simp only [List.dropWhile, ha] at hc
      exact ih c hc
    · have ha2 : p a = false := by simpa using ha
      simp only [List.dropWhile, ha2, List.head?_cons, Option.mem_def, Option.some.injEq] at hc
      exact hc ▸ ha2

theorem mem_takeWhile (p : Char → Bool) (l : List Char) :
    ∀ c ∈ l.takeWhile p, p c = true := by
  induction l with
  | nil => simp
  | cons a l ih =>
    intro c hc
    by_cases ha : p a = true
    · simp only [List.takeWhile, ha, List.mem_cons] at hc
      rcases hc with rfl | hc
      · exact ha
      · exact ih c hc
    · have ha2 : p a = false := by simpa using ha
      simp [List.takeWhile, ha2] at hc

theorem resolveLoop_head (segs : List (List Char)) :
    ∀ (dst : List Char) (first : Bool), dst.head? = some '/' →
      (resolveLoop segs dst first).head? = some '/' := by
  induction segs with
  | nil =>
    intro dst first h
    simpa [resolveLoop] using h
  | cons e rest ih =>
    intro dst first h
    have happ : ∀ x : List Char, (dst ++ x).head? = some '/' := by
      intro x
      cases dst with
      | nil => simp at h
      | cons d ds => simpa using h
    unfold resolveLoop
    by_cases h1 : e = ['.']
    · simp only [h1, if_true]
      by_cases h2 : rest = []
      · simp only [h2, if_true]
        exact happ _
      · simp only [h2, if_false]
        exact ih dst false h
    · simp only [h1, if_false]
      by_cases h3 : e = ['.', '.']
      · simp only [h3, if_true]
        by_cases h2 : rest = []
        · simp [h2]
        · simp only [h2, if_false]
          exact ih _ _ (by simp)
      · simp only [h3, if_false]
        apply ih
        by_cases hf : first = true
        · simp only [hf, if_true]
          exact happ _
        · simp only [hf, Bool.false_eq_true, if_false, List.append_assoc]
          exact happ _

theorem resolvePath_head (base ref : List Char) :
    resolvePath base ref = [] ∨ (resolvePath base ref).head? = some '/' := by
  unfold resolvePath
  simp only
  split_ifs with h
  · exact Or.inl rfl
  · right
    split
    · rfl
    · exact resolveLoop_head _ ['/'] true rfl

theorem str_data_ne (s : String) : s ≠ "" ↔ s.data ≠ [] := by
  constructor
  · intro h hd
    apply h
    exact String.ext hd
  · intro h hs
    apply h
    rw [hs]

theorem str_data_eq (s : String) : s = "" ↔ s.data = [] := by
  constructor
  · intro hs
    rw [hs]
  · intro hd
    exact String.ext hd

theorem parseRest_shape (scheme rest : List Char) (u : GoURL)
    (hs : scheme = [] ∨ validScheme scheme) (h : parseRest scheme rest = some u) :
    ParsedShape u := by
  unfold parseRest at h
  by_cases h1 : hasPrefixChars rest ['/'] = true
  · simp only [h1, Bool.not_true, Bool.false_eq_true, if_false] at h
    have hhead : rest.head? = some '/' := by
      obtain ⟨post, hp⟩ := (hasPrefixChars_iff _ _).1 h1
      simp [hp]
    by_cases h2 : '%' ∈ rest
    · simp [h2] at h
    · simp only [h2, if_false] at h
      split_ifs at h with h3 h4
      · simp only [Option.some.injEq] at h
        subst h
        refine ⟨hs, Or.inr (Or.inl ⟨rfl, rfl, ?_, ?_⟩)⟩
        · intro c hc
          have := mem_takeWhile (fun c => decide (c ≠ '/')) _ c hc
          simpa using this
        · have := head_dropWhile (fun c => decide (c ≠ '/')) (rest.drop 2)
          cases hd : (List.dropWhile (fun c => decide (c ≠ '/')) (rest.drop 2)) with
          | nil => exact Or.inl rfl
          | cons x xs =>
            right
            rw [hd] at this
            have hx := this x (by simp)
            simp only [ne_eq, decide_not, Bool.not_eq_false', decide_eq_true_eq] at hx
            simp [hx]
      · simp only [Option.some.injEq] at h
        subst h
        by_cases hsch : scheme = []
        · exact ⟨hs, Or.inr (Or.inr (Or.inl ⟨hsch, rfl, rfl, by simp [hsch]⟩))⟩
        · exact ⟨hs, Or.inr (Or.inr (Or.inr ⟨hsch, rfl, rfl, by simp [hsch], hhead⟩))⟩
  · have h1f : hasPrefixChars rest ['/'] = false := by simpa using h1
    simp only [h1f, Bool.not_false, if_true] at h
    have hhead : rest.head? ≠ some '/' := by
      intro hh
      apply h1
      cases rest with
      | nil => simp at hh
      | cons c cs =>
        simp only [List.head?_cons, Option.some.injEq] at hh
        simp [hasPrefixChars, hh]
    split_ifs at h with h2 h3 h4
    · simp only [Option.some.injEq] at h
      subst h
      exact ⟨hs, Or.inl ⟨h2, rfl, rfl, rfl, hhead⟩⟩
    · simp only [Option.some.injEq] at h
      subst h
      have hsch : scheme = [] := by simpa using h2
      exact ⟨Or.inl rfl, Or.inr (Or.inr (Or.inl ⟨rfl, rfl, rfl, rfl⟩))⟩

theorem goParse_shape (s : String) (u : GoURL) (h : goParse s = some u) : ParsedShape u := by
  unfold goParse at h
  split_ifs at h
  cases hg : getScheme [] s.data with
  | none => simp [hg] at h
  | some r =>
    obtain ⟨sch, rest⟩ := r
    simp only [hg] at h
    refine parseRest_shape _ rest u ?_ h
    rcases getScheme_valid s.data [] sch rest (Or.inl rfl) hg with h1 | h1
    · exact Or.inl (by simp [h1])
    · exact Or.inr (validScheme_map_toLower sch h1)

theorem validScheme_chars (sch : List Char) (h : validScheme sch) :
    (∀ x ∈ sch, schemeChar x = true) ∧ (∀ c ∈ sch.head?, c.isAlpha = true) ∧ sch ≠ [] := by
  cases sch with
  | nil => exact absurd h id
  | cons c t =>
    refine ⟨?_, ?_, by simp⟩
    · intro x hx
      rcases List.mem_cons.1 hx with rfl | hx
      · simp [schemeChar, h.1]
      · exact h.2 x hx
    · intro x hx
      simp only [List.head?_cons, Option.mem_def, Option.some.injEq] at hx
      exact hx ▸ h.1

theorem goParse_scheme_body (sch body : List Char) (v : GoURL) (hs : validScheme sch)
    (h : goParse (String.mk (sch ++ ':' :: body)) = some v) :
    parseRest (sch.map Char.toLower) body = some v := by
  obtain ⟨h1, h2, h3⟩ := validScheme_chars sch hs
  have hg := getScheme_append body sch [] h1 (fun _ => h2) (by simpa using h3)
  unfold goParse at h
  split_ifs at h
  simp only [List.nil_append] at hg
  simpa only [hg] using h

theorem goParse_slash_body (body : List Char) (v : GoURL)
    (h : goParse (String.mk ('/' :: body)) = some v) :
    parseRest [] ('/' :: body) = some v := by
  have h1 : Char.isAlpha '/' = false := by decide
  have h2 : (Char.isDigit '/' || decide ('/' = '+') || decide ('/' = '-') ||
      decide ('/' = '.')) = false := by decide
  have h3 : ¬ ('/' = ':') := by decide
  have hg : getScheme [] ('/' :: body) = some ([], '/' :: body) := by
    simp [getScheme, h1, h2]
  unfold goParse at h
  split_ifs at h
  simpa only [hg] using h

theorem parseRest_host (scheme host path : List Char) (v : GoURL) (hne : host ≠ [])
    (hh : ∀ c ∈ host, c ≠ '/') (hp : path = [] ∨ path.head? = some '/')
    (h : parseRest scheme ('/' :: '/' :: (host ++ path)) = some v) :
    v.Host = String.mk host := by
  have htw := takeWhile_append_stop (fun c => decide (c ≠ '/')) host path
    (by
      intro c hc
      simpa using hh c hc)
    (by
      intro c hc
      rcases hp with hp | hp
      · simp [hp] at hc
      · rw [hp] at hc
        simp only [Option.mem_def, Option.some.injEq] at hc
        simp [← hc])
  have h3 : hasPrefixChars ('/' :: '/' :: (host ++ path)) ['/', '/', '/'] = false := by
    cases host with
    | nil => exact absurd rfl hne
    | cons c hs =>
      have : c ≠ '/' := hh c (List.mem_cons_self _ _)
      simp [hasPrefixChars, this]
  have h1 : hasPrefixChars ('/' :: '/' :: (host ++ path)) ['/'] = true := by
    simp [hasPrefixChars]
  have h2 : hasPrefixChars ('/' :: '/' :: (host ++ path)) ['/', '/'] = true := by
    simp [hasPrefixChars]
  unfold parseRest at h
  simp only [h1, h2, h3, Bool.not_true, Bool.not_false, Bool.false_eq_true, if_false,
    Bool.or_true, Bool.and_true, if_true, List.drop_succ_cons, List.drop_zero, htw.1,
    htw.2] at h
  split_ifs at h
  simp only [Option.some.injEq] at h
  rw [← h]

theorem parseRest_host_cases (scheme body : List Char) (v : GoURL)
    (h : parseRest scheme body = some v) :
    v.Host = "" ∨
      (hasPrefixChars body ['/', '/'] = true ∧
        v.Host = String.mk ((body.drop 2).takeWhile (fun c => c ≠ '/'))) := by
  unfold parseRest at h
  by_cases h1 : hasPrefixChars body ['/'] = true
  · simp only [h1, Bool.not_true, Bool.false_eq_true, if_false] at h
    by_cases h2 : '%' ∈ body
    · simp [h2] at h
    · simp only [h2, if_false] at h
      by_cases h3 : ((decide (scheme ≠ []) || !hasPrefixChars body ['/', '/', '/']) &&
          hasPrefixChars body ['/', '/']) = true
      · simp only [h3, if_true] at h
        simp only [Bool.and_eq_true] at h3
        by_cases h4 : validOptionalPort
            (List.dropWhile (fun c => decide (c ≠ ':'))
              (List.takeWhile (fun c => decide (c ≠ '/')) (List.drop 2 body))) = true
        · rw [if_pos h4] at h
          simp only [Option.some.injEq] at h
          subst h
          exact Or.inr ⟨h3.2, rfl⟩
        · rw [if_neg h4] at h
          cases h
      · simp only [h3, Bool.false_eq_true, if_false, Option.some.injEq] at h
        subst h
        exact Or.inl rfl
  · have h1f : hasPrefixChars body ['/'] = false := by simpa using h1
    simp only [h1f, Bool.not_false, if_true] at h
    split_ifs at h
    all_goals
      simp only [Option.some.injEq] at h
      subst h
      exact Or.inl rfl

theorem parseRest_no_host (scheme body : List Char) (v : GoURL)
    (hb : hasPrefixChars body ['/', '/'] = true → (body.drop 2).head? = some '/')
    (h : parseRest scheme body = some v) : v.Host = "" := by
  rcases parseRest_host_cases scheme body v h with h1 | ⟨h1, h2⟩
  · exact h1
  · rw [h2]
    have := hb h1
    cases hd : body.drop 2 with
    | nil => rfl
    | cons c cs =>
      rw [hd] at this
      simp only [List.head?_cons, Option.some.injEq] at this
      simp [List.takeWhile, this]

theorem goStringChars_host (u : GoURL) (hO : u.Opaque.data = []) (hH : u.Host.data ≠ [])
    (hP : u.Path.data = [] ∨ u.Path.data.head? = some '/') :
    goStringChars u =
      (if u.Scheme.data ≠ [] then u.Scheme.data ++ [':'] else []) ++
        '/' :: '/' :: (u.Host.data ++ u.Path.data) := by
  have hslash : ¬ (u.Path.data ≠ [] ∧ u.Path.data.head? ≠ some '/' ∧ u.Host.data ≠ []) := by
    rintro ⟨h1, h2, _⟩
    rcases hP with hP | hP
    · exact h1 hP
    · exact h2 hP
  unfold goStringChars
  simp only [hO, ne_eq, not_true_eq_false, if_false, hH, not_false_eq_true, or_true, if_true,
    and_false, true_or, hslash, List.append_nil, false_and]
  have hP2 : ¬ u.Path.data = [] → u.Path.data.head? = some '/' := by
    intro h1
    rcases hP with hP | hP
    · exact absurd hP h1
    · exact hP
  by_cases hs : u.Scheme.data = [] <;> simp [hs] <;> exact hP2

theorem goParse_goString_host (u v : GoURL)
    (hs : u.Scheme.data = [] ∨ validScheme u.Scheme.data) (hO : u.Opaque.data = [])
    (hH : u.Host.data ≠ []) (hHs : ∀ c ∈ u.Host.data, c ≠ '/')
    (hP : u.Path.data = [] ∨ u.Path.data.head? = some '/')
    (h : goParse (goString u) = some v) : v.Host = u.Host := by
  unfold goString at h
  rw [goStringChars_host u hO hH hP] at h
  rcases hs with hs | hs
  · simp only [hs, ne_eq, not_true_eq_false, if_false, List.nil_append] at h
    exact parseRest_host [] _ _ v hH hHs hP (goParse_slash_body _ v h)
  · have hne : u.Scheme.data ≠ [] := (validScheme_chars _ hs).2.2
    simp only [hne, ne_eq, not_false_eq_true, if_true, List.append_assoc,
      List.singleton_append] at h
    exact parseRest_host _ _ _ v hH hHs hP (goParse_scheme_body _ _ v hs h)

theorem goParse_goString_no_host (sch body : List Char) (u v : GoURL) (hs : validScheme sch)
    (hr : goStringChars u = sch ++ ':' :: body)
    (hb : hasPrefixChars body ['/', '/'] = true → (body.drop 2).head? = some '/')
    (h : goParse (goString u) = some v) : v.Host = "" := by
  unfold goString at h
  rw [hr] at h
  exact parseRest_no_host _ body v hb (goParse_scheme_body sch body v hs h)

theorem hasPrefix_two_of_head (body : List Char) (h : body.head? ≠ some '/') :
    hasPrefixChars body ['/', '/'] = false := by
  cases body with
  | nil => rfl
  | cons c cs =>
    have : c ≠ '/' := by
      intro hc
      exact h (by simp [hc])
    simp [hasPrefixChars, this]

theorem goResolveReference_scheme (pb pl : GoURL) (hs : pl.Scheme.data ≠ []) :
    goResolveReference pb pl =
      { pl with Path := String.mk (resolvePath pl.Path.data []) } := by
  have h1 : pl.Scheme ≠ "" := (str_data_ne _).2 hs
  unfold goResolveReference
  simp [h1]

theorem goResolveReference_no_scheme (pb pl : GoURL) (hs : pl.Scheme.data = [])
    (hh : pl.Host.data = []) (ho : pl.Opaque.data = []) (hbo : pb.Opaque.data = []) :
    goResolveReference pb pl =
      { pl with Scheme := pb.Scheme, Host := pb.Host,
                Path := String.mk (resolvePath pb.Path.data pl.Path.data) } := by
  have h1 : pl.Scheme = "" := (str_data_eq _).2 hs
  have h2 : pl.Host = "" := (str_data_eq _).2 hh
  have h3 : pl.Opaque = "" := (str_data_eq _).2 ho
  have h4 : pb.Opaque = "" := (str_data_eq _).2 hbo
  unfold goResolveReference
  simp [h1, h2, h3, h4]

theorem goUrl_render_keeps_host : RenderKeepsHost goUrl := by
  constructor
  · intro link pl v hp hne hv
    have hp2 : goParse link = some pl := hp
    have hv2 : goParse (goString pl) = some v := hv
    have hne2 : pl.Host.data ≠ [] := (str_data_ne _).1 hne
    obtain ⟨hs, hform⟩ := goParse_shape link pl hp2
    rcases hform with ⟨_, h, _⟩ | ⟨hO, _, hHs, hP⟩ | ⟨_, _, h, _⟩ | ⟨_, _, h, _⟩
    · exact absurd h hne2
    · exact goParse_goString_host pl v hs hO hne2 hHs hP hv2
    · exact absurd h hne2
    · exact absurd h hne2
  · intro base link pb pl v hpb hbh hpl hlh hv
    have hpb2 : goParse base = some pb := hpb
    have hpl2 : goParse link = some pl := hpl
    have hv2 : goParse (goString (goResolveReference pb pl)) = some v := hv
    have hbh2 : pb.Host.data ≠ [] := (str_data_ne _).1 hbh
    have hlh2 : pl.Host.data = [] := (str_data_eq _).1 hlh
    obtain ⟨hbs, hbform⟩ := goParse_shape base pb hpb2
    obtain ⟨hls, hlform⟩ := goParse_shape link pl hpl2
    have hbase : pb.Opaque.data = [] ∧ (∀ c ∈ pb.Host.data, c ≠ '/') := by
      rcases hbform with ⟨_, h, _⟩ | ⟨hO, _, hHs, _⟩ | ⟨_, _, h, _⟩ | ⟨_, _, h, _⟩
      · exact absurd h hbh2
      · exact ⟨hO, hHs⟩
      · exact absurd h hbh2
      · exact absurd h hbh2
    have noScheme : pl.Scheme.data = [] → pl.Opaque.data = [] →
        GoURL.Host v = pb.Host ∨ GoURL.Host v = "" := by
      intro hs ho
      rw [goResolveReference_no_scheme pb pl hs hlh2 ho hbase.1] at hv2
      left
      exact goParse_goString_host
        { pl with Scheme := pb.Scheme, Host := pb.Host,
                  Path := String.mk (resolvePath pb.Path.data pl.Path.data) }
        v hbs ho hbh2 hbase.2 (resolvePath_head _ _) hv2
    have withScheme : ∀ body : List Char, validScheme pl.Scheme.data →
        goStringChars { pl with Path := String.mk (resolvePath pl.Path.data []) } =
          pl.Scheme.data ++ ':' :: body →
        (hasPrefixChars body ['/', '/'] = true → (body.drop 2).head? = some '/') →
        GoURL.Host v = pb.Host ∨ GoURL.Host v = "" := by
      intro body hs hr hb
      rw [goResolveReference_scheme pb pl (validScheme_chars _ hs).2.2] at hv2
      right
      exact goParse_goString_no_host _ body _ v hs hr hb hv2
    rcases hlform with ⟨hs, _, hP, hOm, hOp⟩ | ⟨hO, hOm, _, hP⟩ | ⟨hs, hO, _, _⟩ |
        ⟨hs, hO, _, hOm, hP⟩
    · -- opaque
      have hv := hls.resolve_left hs
      refine withScheme pl.Opaque.data hv ?_ ?_
      · have hq : resolvePath pl.Path.data [] = [] := by
          rw [hP]
          rfl
        unfold goStringChars
        by_cases ho : pl.Opaque.data = []
        · simp [hs, ho, hq, hlh2, hOm]
        · simp [hs, ho]
      · intro h
        rw [hasPrefix_two_of_head _ hOp] at h
        cases h
    · -- authority without host
      by_cases hs : pl.Scheme.data = []
      · exact noScheme hs hO
      · have hv := hls.resolve_left hs
        have hq := resolvePath_head pl.Path.data []
        by_cases hqe : resolvePath pl.Path.data [] = []
        · refine withScheme [] hv ?_ (by intro h; cases h)
          unfold goStringChars
          simp [hs, hO, hqe, hlh2, hOm]
        · refine withScheme ('/' :: '/' :: resolvePath pl.Path.data []) hv ?_ ?_
          · unfold goStringChars
            have hq2 : (resolvePath pl.Path.data []).head? = some '/' := hq.resolve_left hqe
            simp [hs, hO, hqe, hlh2, hOm, hq2]
          · intro _
            exact hq.resolve_left hqe
    · -- neither scheme nor host
      exact noScheme hs hO
    · -- scheme and omitted host
      have hv := hls.resolve_left hs
      have hq := resolvePath_head pl.Path.data []
      by_cases hg : hasPrefixChars (resolvePath pl.Path.data []) ['/', '/'] = true
      · refine withScheme ('%' :: '2' :: 'F' :: (resolvePath pl.Path.data []).drop 1) hv ?_
          (by
            intro h
            simp [hasPrefixChars] at h)
        unfold goStringChars
        simp [hs, hO, hlh2, hOm, hg]
      · refine withScheme (resolvePath pl.Path.data []) hv ?_ (fun h => absurd h hg)
        unfold goStringChars
        simp [hs, hO, hlh2, hOm, hg]

theorem scenario_reachable :
    Reachable goUrl "blocked.test" "https://a.test/index.html" scenarioEnd :=
  ⟨{ lc := { NewLinkCollector 5 "blocked.test" with Wg := 0 + 1 }
     tasks := [Task.launched "https://a.test/index.html"]
     fetched := [] },
    scenarioSchedule, by rfl, by rfl⟩

/-- C2 as stated fails: `CollectLinks` fetches with the default client of `net/http`, which
follows redirects without a look at the blocklist. In the crawl of the seed
"https://a.test/index.html" under the blocklist "blocked.test", with a server that answers
the seed with a redirect to "http://blocked.test/x", the one call of `http.Get` has the seed
as argument and the client sends a second request, for a URL whose host is blocklisted. -/
theorem redirect_reaches_blocklisted_host :
    Reachable goUrl "blocked.test" "https://a.test/index.html" redirectEnd ∧
    redirectEnd.fetched = ["https://a.test/index.html"] ∧
    httpRequests goUrl redirectWeb redirectEnd.fetched =
      ["https://a.test/index.html", "http://blocked.test/x"] ∧
    goUrl.Parse "http://blocked.test/x" = some ⟨"http", "", "blocked.test", "/x", false⟩ ∧
    (newBlocklist "blocked.test").contains "blocked.test" = true :=
  ⟨⟨{ lc := { NewLinkCollector 5 "blocked.test" with Wg := 0 + 1 }
      tasks := [Task.launched "https://a.test/index.html"]
      fetched := [] },
     redirectSchedule, by rfl, by rfl⟩,
    by rfl, by rfl, by rfl, by decide⟩

/-- C2, amended: in every state of a crawl, for a blocklisted host `H`, no call of
`http.Get` was made with a URL whose host is `H`, and, `net/url` parsing the string of a
recorded URL back to the host it was rendered with (`RenderKeepsHost`), no member of
`VisitedLinks` parses to a URL whose host is `H`. A request that the client sends is for the
argument of a call or for the target of a redirect; the targets are not filtered. -/
theorem blocklisted_host_not_recorded_nor_passed_to_Get (lib : UrlLib)
    (hround : RenderKeepsHost lib) (b startURL : String) (w : World)
    (hreach : Reachable lib b startURL w) (H : String)
    (hH : (newBlocklist b).contains H = true) :
    (∀ s ∈ w.lc.VisitedLinks.keys, ∀ v, lib.Parse s = some v → lib.Host v ≠ H) ∧
    (∀ s ∈ w.fetched, ∃ v, lib.Parse s = some v ∧ lib.Host v ≠ H) ∧
    (∀ (redirects : String → List String), ∀ s ∈ httpRequests lib redirects w.fetched,
      (∃ v, lib.Parse s = some v ∧ lib.Host v ≠ H) ∨ ∃ url ∈ w.fetched, s ∈ redirects url) := by
  obtain ⟨parsedURL, _, hinv⟩ := crawlInv_reachable lib b startURL w hreach
  have hne : ∀ h : String, (newBlocklist b).contains h = false → h ≠ H := by
    intro h hh heq
    rw [heq, hH] at hh
    exact Bool.noConfusion hh
  have hfetched : ∀ s ∈ w.fetched, ∃ v, lib.Parse s = some v ∧ lib.Host v ≠ H := by
    intro s hs
    obtain ⟨u, hu, hb⟩ := hinv.fetched s hs
    exact ⟨u, hu, hne _ hb⟩
  refine ⟨?_, hfetched, ?_⟩
  · intro s hs v hv
    exact hne _ (hinv.visited hround s hs v hv)
  · intro redirects s hs
    unfold httpRequests at hs
    rw [List.mem_flatMap] at hs
    obtain ⟨url, hurl, hmem⟩ := hs
    by_cases hp : hostPresent lib url = true
    · simp only [hp, if_true, List.mem_cons] at hmem
      rcases hmem with rfl | hmem
      · exact Or.inl (hfetched s hurl)
      · exact Or.inr ⟨url, hurl, hmem⟩
    · simp [hp] at hmem

/-- C2, amended, at the end of the scenario, for the blocklisted host "blocked.test": the
one visited link, "https://a.test/page2", parses to the host "a.test". -/
theorem blocklisted_host_not_recorded_nor_passed_to_Get_witness :
    RenderKeepsHost goUrl ∧
    Reachable goUrl "blocked.test" "https://a.test/index.html" scenarioEnd ∧
    (newBlocklist "blocked.test").contains "blocked.test" = true ∧
    scenarioEnd.lc.VisitedLinks.keys = ["https://a.test/page2"] ∧
    goUrl.Parse "https://a.test/page2" = some ⟨"https", "", "a.test", "/page2", false⟩ ∧
    (∀ s ∈ scenarioEnd.lc.VisitedLinks.keys,
      ∀ v, goUrl.Parse s = some v → goUrl.Host v ≠ "blocked.test") ∧
    (∀ s ∈ scenarioEnd.fetched, ∃ v, goUrl.Parse s = some v ∧ goUrl.Host v ≠ "blocked.test") :=
  ⟨goUrl_render_keeps_host, scenario_reachable, by decide, by rfl, by rfl,
    (blocklisted_host_not_recorded_nor_passed_to_Get goUrl goUrl_render_keeps_host
      "blocked.test" "https://a.test/index.html" scenarioEnd scenario_reachable "blocked.test"
      (by decide)).1,
    (blocklisted_host_not_recorded_nor_passed_to_Get goUrl goUrl_render_keeps_host
      "blocked.test" "https://a.test/index.html" scenarioEnd scenario_reachable "blocked.test"
      (by decide)).2.1⟩

/-- C1 fails on the code: with the seed "https://a.test/index.html" and a seed page that
holds `<a href="/index.html">`, the link resolves to the seed, which was never recorded, and
a second goroutine is launched for the same string. -/
theorem seed_launched_twice :
    (crawl goUrl "blocked.test" "https://a.test/index.html" selfSchedule).map
        World.launches =
      some ["https://a.test/index.html", "https://a.test/index.html"] ∧
    ¬ ["https://a.test/index.html", "https://a.test/index.html"].Nodup ∧
    (crawl goUrl "blocked.test" "https://a.test/index.html" selfSchedule).map
        (fun w => w.lc.VisitedLinks.keys) =
      some ["https://a.test/index.html"] := by
  refine ⟨by rfl, by decide, by rfl⟩

/-- C3 fails on the code: for the seed "http://blocked.test/x" under the blocklist
"blocked.test", `CollectLinks` returns in one step without a fetch, without a slot, without
a launch and without a change of the collector, `VisitedLinks` and `DomainList` included:
the counter, 1 before the step, is 1 after it. `Wg.Done` is deferred only after the
blocklist test. -/
theorem blocked_CollectLinks_keeps_counter :
    (mainStart goUrl "blocked.test" "http://blocked.test/x").map
        (fun w => (w.lc.Wg, w.tasks)) =
      some (1, [Task.launched "http://blocked.test/x"]) ∧
    ((mainStart goUrl "blocked.test" "http://blocked.test/x").bind
        (fun w => CollectLinks goUrl w.lc none (Task.launched "http://blocked.test/x"))).map
        (fun p => (p.lc.Wg, p.task, p.fetched, p.launched, p.lc.semCur,
          p.lc.VisitedLinks.keys, p.lc.DomainList.keys)) =
      some (1, Task.returned "http://blocked.test/x", [], [], 0, [], []) ∧
    CollectLinks goUrl { NewLinkCollector 5 "blocked.test" with Wg := 1 } none
        (Task.launched "http://blocked.test/x") =
      some { lc := { NewLinkCollector 5 "blocked.test" with Wg := 1 }
             task := Task.returned "http://blocked.test/x", launched := [], fetched := [] } :=
  ⟨by rfl, by rfl,
    CollectLinks_blocked goUrl { NewLinkCollector 5 "blocked.test" with Wg := 1 } none
      "http://blocked.test/x" ⟨"http", "", "blocked.test", "/x", false⟩ (by rfl) (by decide)⟩

/-- C4 fails on the code: after the crawl of the blocklisted seed "http://blocked.test/x"
has taken its one step, no goroutine is unfinished and the counter is 1, not 0; no further
step is possible, so the counter never reaches 0. What holds there, as in every state of a
crawl, is that the counter is the number of unfinished goroutines plus the number of those
that returned on the blocklist test. -/
theorem counter_positive_with_no_task_left :
    crawl goUrl "blocked.test" "http://blocked.test/x" [(0, none)] = some blockedSeedEnd ∧
    blockedSeedEnd.lc.Wg = 1 ∧
    blockedSeedEnd.unfinished = 0 ∧
    blockedSeedEnd.tasks = [Task.returned "http://blocked.test/x"] ∧
    (∀ i resp, step goUrl blockedSeedEnd i resp = none) ∧
    blockedSeedEnd.lc.Wg =
      (blockedSeedEnd.unfinished : Int) + (blockedSeedEnd.skipped goUrl : Int) := by
  refine ⟨by rfl, by rfl, by rfl, by rfl, ?_, ?_⟩
  · intro i resp
    cases i with
    | zero => rfl
    | succ n => rfl
  · exact (reachable_launches_and_counter goUrl "blocked.test" "http://blocked.test/x"
      blockedSeedEnd
      ⟨{ lc := { NewLinkCollector 5 "blocked.test" with Wg := 0 + 1 }
         tasks := [Task.launched "http://blocked.test/x"]
         fetched := [] },
        [(0, none)], by rfl, by rfl⟩).2.2.1

/-- C10 fails on the code: the scenario ends with the counter at zero and with
`VisitedLinks` equal to {"https://a.test/page2"}: the seed is not recorded. The relative
link is resolved against the seed, the blocked link is not recorded, and "blocked.test" is
absent from the final domain dump. -/
theorem scenario_visited_lacks_seed :
    crawl goUrl "blocked.test" "https://a.test/index.html" scenarioSchedule =
      some scenarioEnd ∧
    scenarioEnd.lc.Wg = 0 ∧
    scenarioEnd.unfinished = 0 ∧
    scenarioEnd.lc.VisitedLinks.keys = ["https://a.test/page2"] ∧
    "https://a.test/index.html" ∉ scenarioEnd.lc.VisitedLinks.keys ∧
    scenarioEnd.fetched = ["https://a.test/index.html", "https://a.test/page2"] ∧
    (SaveDomainList scenarioEnd.lc "visited_domains.json" scenarioEnd.lc.DomainList.keys
      allOk).domains = ["a.test"] ∧
    "blocked.test" ∉
      (SaveDomainList scenarioEnd.lc "visited_domains.json" scenarioEnd.lc.DomainList.keys
        allOk).domains := by
  refine ⟨by rfl, by rfl, by rfl, by rfl, by decide, by rfl, by rfl, by decide⟩

end Lloth
